import Mathlib

/-!
Verification of the MessageHeaders library (HANABLI/MessageHeaders).

The embedding below models `src/MessageHeaders.cpp` over `List Char`:
strings are lists of characters, `std::string::npos`-style size_t
wraparound is modelled at each call site where it is reachable, and the
three parser/serializer loops (the `ParseRawMessage` while-loop, its
inner unfolding loop, and `SplitLine`) are written with an explicit
iteration budget ("fuel") that the public wrappers instantiate with a
bound that provably exceeds the number of iterations, so that every
definition evaluates by kernel reduction.
-/

namespace MHeaders

/-- WSP character test: space or horizontal tab (the `WSP` string of
MessageHeaders.cpp line 22, used via `find_first_not_of`/`find_last_not_of`). -/
def isWSP (c : Char) : Bool := c = ' ' || c = '\t'

/-- The CRLF line terminator (MessageHeaders.cpp line 27). -/
def CRLFl : List Char := ['\r', '\n']

/-- `StripMarginWhitespace` (MessageHeaders.cpp lines 32-44): removes the
leading and trailing run of WSP.  `find_first_not_of`/`find_last_not_of`
pick the margins; trimming both margins is expressed by the two
`dropWhile` passes. -/
def stripMarginWhitespace (s : List Char) : List Char :=
  ((s.dropWhile isWSP).reverse.dropWhile isWSP).reverse

/-- `std::string::substr(pos, count)` for the in-range uses of the source. -/
def substr (s : List Char) (pos count : Nat) : List Char := (s.drop pos).take count

/-- `s[i]`; reads past the end of the string (which are undefined behaviour
in the C++ source and only reachable in the line-folding scan when the
window bound wraps around) are modelled as NUL, which no character test of
the source matches. -/
def charAt (s : List Char) (i : Nat) : Char := s.getD i (Char.ofNat 0)

/-- Helper for `std::string::find("\r\n", offset)`: index of the first
CRLF pair in the list, if any. -/
def findCRLFAux : List Char → Option Nat
  | c1 :: c2 :: rest =>
    if c1 = '\r' && c2 = '\n' then some 0 else (findCRLFAux (c2 :: rest)).map (· + 1)
  | _ => none

/-- `rawMessage.find(CRLF, offset)`; `none` models `std::string::npos`. -/
def findCRLF (s : List Char) (offset : Nat) : Option Nat :=
  (findCRLFAux (s.drop offset)).map (· + offset)

/-- Helper for `std::string::find(c, offset)`. -/
def findCharAux (c : Char) : List Char → Option Nat
  | [] => none
  | x :: rest => if x = c then some 0 else (findCharAux c rest).map (· + 1)

/-- `rawMessage.find(c, offset)`; `none` models `std::string::npos`. -/
def findCharFrom (s : List Char) (c : Char) (offset : Nat) : Option Nat :=
  (findCharAux c (s.drop offset)).map (· + offset)

/-- Helper for `find_first_not_of(WSP, offset)`. -/
def findNotWSPAux : List Char → Option Nat
  | [] => none
  | x :: rest => if isWSP x then (findNotWSPAux rest).map (· + 1) else some 0

/-- `rawMessage.find_first_not_of(WSP, offset)`; `none` models `npos`. -/
def findNotWSPFrom (s : List Char) (offset : Nat) : Option Nat :=
  (findNotWSPAux (s.drop offset)).map (· + offset)

/-- A stored header: the pair of name and value
(`MessageHeaders::Header`, MessageHeaders.cpp lines 175-178). -/
structure Header where
  name : List Char
  value : List Char
deriving DecidableEq, Repr

/-- `tolower` as applied to the ASCII header-name bytes by
`HeaderName::operator==`. -/
def toLowerChar (c : Char) : Char :=
  if 'A' ≤ c && c ≤ 'Z' then Char.ofNat (c.toNat + 32) else c

/-- `HeaderName::operator==` (MessageHeaders.cpp lines 149-163): equal
lengths and case-insensitively equal characters. -/
def nameEqual : List Char → List Char → Bool
  | [], [] => true
  | a :: as, b :: bs => (toLowerChar a == toLowerChar b) && nameEqual as bs
  | _, _ => false

/-- The parse state returned by `ParseRawMessage`
(`MessageHeaders::State`). -/
inductive ParseState
  | Complete
  | Incomplete
  | Error
deriving DecidableEq, Repr

/-- The private state of a `MessageHeaders` object
(`MessageHeaders::Impl`, MessageHeaders.cpp lines 180-198). -/
structure MessageHeadersState where
  headers : List Header
  lineLengthLimit : Nat
  valid : Bool
deriving DecidableEq, Repr

/-- A fresh `MessageHeaders` object: no headers, no line-length limit,
valid. -/
def emptyState : MessageHeadersState := ⟨[], 0, true⟩

/-- The header-name character test of MessageHeaders.cpp lines 294-300:
the loop marks the store invalid when a name byte `c` has `c < 33` or
`c > 126`. -/
def goodNameChar (c : Char) : Bool := 33 ≤ c.toNat && c.toNat ≤ 126

/-- The look-ahead/unfolding loop of `ParseRawMessage`
(MessageHeaders.cpp lines 306-339).  Arguments after the fuel: the
accumulated header value, the current `offset`, and the current
`lineTerminator`.  `.error off` models the `return State::Incomplete`
of line 315 (with `bodyOffset = off`); `.ok (value, offset)` models
falling out of the loop at the `break` of line 337. -/
def unfoldLoop (raw : List Char) :
    Nat → List Char → Nat → Nat → Except Nat (List Char × Nat)
  | 0, _, offset, _ => .error offset
  | fuel + 1, value, offset, lineTerminator =>
    let nextLineStart := lineTerminator + 2
    match findCRLF raw nextLineStart with
    | none => .error offset
    | some nextLineTerminator =>
      let nextLineLength := nextLineTerminator - nextLineStart
      if nextLineLength > 2 && isWSP (charAt raw nextLineStart) then
        -- find_first_not_of cannot fail here: the CR at nextLineTerminator is not WSP.
        -- The (unreachable) npos case is defaulted to the string end.
        let firstNonWSP := (findNotWSPFrom raw nextLineStart).getD raw.length
        let value' := value ++ ' ' ::
          substr raw firstNonWSP (nextLineLength - (firstNonWSP - nextLineStart))
        unfoldLoop raw fuel value' (nextLineTerminator + 2) nextLineTerminator
      else .ok (value, offset)

/-- The result of one iteration of the `ParseRawMessage` while-loop:
either leave the loop/function with a final result, or continue at a new
offset with an updated store. -/
inductive StepResult
  | exit (state : ParseState) (bodyOffset : Nat) (st : MessageHeadersState)
  | next (offset : Nat) (st : MessageHeadersState)
deriving DecidableEq, Repr

/-- The tail of a header-line iteration of `ParseRawMessage`: on the
`Incomplete` return of line 315 the header is not stored; otherwise the
final strip of line 342 is applied and the header is pushed (line 343). -/
def finishHeader (st : MessageHeadersState) (valid' : Bool) (name : List Char)
    (r : Except Nat (List Char × Nat)) : StepResult :=
  match r with
  | .error off => .exit .Incomplete off {st with valid := valid'}
  | .ok (value1, offset') =>
    .next offset'
      {st with valid := valid',
               headers := st.headers ++ [⟨name, stripMarginWhitespace value1⟩]}

/-- One iteration of the `ParseRawMessage` while-loop
(MessageHeaders.cpp lines 253-344), entered with `offset < raw.length`.
The `break`s of the source fall through to the final
`offset == 0 ? Incomplete : Complete` check, which is inlined into the
`exit` constructors here (after the empty-line `break` the offset is
`offset + 2 ≠ 0`, hence `Complete`). -/
def parseStep (raw : List Char) (offset : Nat) (st : MessageHeadersState) : StepResult :=
  match findCRLF raw offset with
  | none =>
    if st.lineLengthLimit > 0 && (raw.length - offset) + 2 > st.lineLengthLimit then
      .exit .Error 0 {st with valid := false}
    else
      .exit (if offset = 0 then .Incomplete else .Complete) offset st
  | some lineTerminator =>
    if st.lineLengthLimit > 0 && (lineTerminator - offset) + 2 > st.lineLengthLimit then
      .exit .Error 0 {st with valid := false}
    else if lineTerminator = offset then
      .exit .Complete (offset + 2) st
    else
      match findCharFrom raw ':' offset with
      | none => .exit .Error 0 {st with valid := false}
      | some nameValueDelimiter =>
        let name := substr raw offset (nameValueDelimiter - offset)
        let valid' := st.valid && name.all goodNameChar
        -- size_t: when the first ':' lies beyond the line terminator the count
        -- lineTerminator - nameValueDelimiter - 1 wraps far past the string end,
        -- so substr takes everything after the delimiter.
        let value0 := stripMarginWhitespace
          (if nameValueDelimiter + 1 ≤ lineTerminator
           then substr raw (nameValueDelimiter + 1) (lineTerminator - (nameValueDelimiter + 1))
           else raw.drop (nameValueDelimiter + 1))
        finishHeader st valid' name
          (unfoldLoop raw (raw.length + 1) value0 (lineTerminator + 2) lineTerminator)

/-- The `ParseRawMessage` while-loop (MessageHeaders.cpp lines 253-344),
driven by `parseStep`; when the loop guard fails the final
`offset == 0 ? Incomplete : Complete` check of lines 345-350 applies.
The fuel-exhausted result equals the guard-false result, and the wrapper
supplies fuel exceeding the worst-case iteration count. -/
def parseLoop (raw : List Char) :
    Nat → Nat → MessageHeadersState → ParseState × Nat × MessageHeadersState
  | 0, offset, st => (if offset = 0 then .Incomplete else .Complete, offset, st)
  | fuel + 1, offset, st =>
    if offset < raw.length then
      match parseStep raw offset st with
      | .exit s b st' => (s, b, st')
      | .next offset' st' => parseLoop raw fuel offset' st'
    else (if offset = 0 then .Incomplete else .Complete, offset, st)

/-- `MessageHeaders::ParseRawMessage` (MessageHeaders.cpp lines 249-351):
returns the parse state, the body offset, and the updated store. -/
def parseRawMessage (st : MessageHeadersState) (raw : List Char) :
    ParseState × Nat × MessageHeadersState :=
  parseLoop raw (raw.length + 1) 0 st

/-- `MessageHeaders::GetAll` (MessageHeaders.cpp line 359). -/
def getAll (st : MessageHeadersState) : List Header := st.headers

/-- `MessageHeaders::IsValid` (MessageHeaders.cpp line 568). -/
def isValid (st : MessageHeadersState) : Bool := st.valid

/-- `MessageHeaders::HasHeader` (MessageHeaders.cpp lines 361-371). -/
def hasHeader (headers : List Header) (name : List Char) : Bool :=
  headers.any (fun h => nameEqual h.name name)

/-- `MessageHeaders::GetHeaderValue` (MessageHeaders.cpp lines 498-508):
value of the first case-insensitive match, or empty. -/
def getHeaderValue (headers : List Header) (name : List Char) : List Char :=
  match headers with
  | [] => []
  | h :: rest => if nameEqual h.name name then h.value else getHeaderValue rest name

/-- The erase/replace loop of `MessageHeaders::SetHeader`
(MessageHeaders.cpp lines 375-395), threading the `haveSetValues` flag;
returns the rewritten list and the final flag. -/
def setHeaderAux (name value : List Char) : List Header → Bool → List Header × Bool
  | [], haveSet => ([], haveSet)
  | h :: rest, haveSet =>
    if nameEqual h.name name then
      if haveSet then setHeaderAux name value rest haveSet
      else
        let r := setHeaderAux name value rest true
        (⟨h.name, value⟩ :: r.1, r.2)
    else
      let r := setHeaderAux name value rest haveSet
      (h :: r.1, r.2)

/-- `MessageHeaders::SetHeader(name, value)` (MessageHeaders.cpp lines
373-400): replace the first match in place, erase later matches, append
when nothing matched. -/
def setHeader (headers : List Header) (name value : List Char) : List Header :=
  let r := setHeaderAux name value headers false
  if r.2 then r.1 else r.1 ++ [⟨name, value⟩]

/-- `MessageHeaders::AddHeader(name, value)` (MessageHeaders.cpp lines
445-448): unconditional append. -/
def addHeader (headers : List Header) (name value : List Char) : List Header :=
  headers ++ [⟨name, value⟩]

/-- `MessageHeaders::RemoveHeader` (MessageHeaders.cpp lines 484-497):
erase every match. -/
def removeHeader (headers : List Header) (name : List Char) : List Header :=
  headers.filter (fun h => !(nameEqual h.name name))

/-- The scan of `MakeHeaderLineFoldingStrategy` (MessageHeaders.cpp lines
221-235): iterate `count` indices starting at `i`, remembering the latest
SP/HT as break offset — except that the first SP/HT seen while
`firstPart` is still set only clears `firstPart`. -/
def strategyScan (s : List Char) : Nat → Nat → Nat → Bool → Nat × Bool
  | 0, _, breakOffset, firstPart => (breakOffset, firstPart)
  | count + 1, i, breakOffset, firstPart =>
    if isWSP (charAt s i) then
      if firstPart then strategyScan s count (i + 1) breakOffset false
      else strategyScan s count (i + 1) i firstPart
    else strategyScan s count (i + 1) breakOffset firstPart

/-- The strategy closure made by `MakeHeaderLineFoldingStrategy`
(MessageHeaders.cpp lines 209-239), with the shared `firstPart` state
passed and returned explicitly.  Returns (ok, breakOffset, firstPart').
The loop bound `startOffset + lineLengthLimit - reservedCharacters` is
size_t arithmetic: when it underflows (limit < reserved) it wraps to at
least 2^64 - 4, above every in-string index, and the out-of-range reads
`s[i]` (undefined behaviour in the source) are modelled as NUL, which is
not WSP — in both cases the scan beyond the last in-string index is a
no-op, so the scan is capped there.  `nextOffset` is omitted: `SplitLine`
only ever uses `breakOffset + 1`. -/
def headerLineFoldingStrategy (limit : Nat) (s : List Char) (startOffset : Nat)
    (firstPart : Bool) : Bool × Nat × Bool :=
  if s.length - startOffset ≤ limit then (true, s.length, firstPart)
  else
    let reserved := 2 + (if firstPart then 0 else 1)
    let stop := if reserved ≤ startOffset + limit
      then min (startOffset + limit - reserved) (s.length - 1)
      else s.length - 1
    let r := strategyScan s (stop + 1 - startOffset) startOffset startOffset firstPart
    (r.1 != startOffset, r.1, r.2)

/-- The final test of `SplitLine` lines 116-118: `part` already ends with
the terminator. -/
def endsWith (l suffix : List Char) : Bool :=
  suffix.length ≤ l.length && l.drop (l.length - suffix.length) == suffix

/-- The loop of `SplitLine` (MessageHeaders.cpp lines 96-125),
specialised to the header-line folding strategy, with the strategy's
`firstPart` state threaded through.  `none` models the `return {}` of
line 108 (which discards all parts already built); the fuel-exhausted
result is also `none` and is unreachable from `splitLine`. -/
def splitLineAux (line term cont : List Char) (limit : Nat) :
    Nat → Nat → Bool → Option (List (List Char))
  | 0, _, _ => none
  | fuel + 1, currentLineStart, firstPart =>
    if currentLineStart < line.length then
      let r := headerLineFoldingStrategy limit line currentLineStart firstPart
      if r.1 then
        let part0 := (if currentLineStart ≠ 0 then cont else []) ++
          substr line currentLineStart (r.2.1 - currentLineStart)
        let part := if endsWith part0 term then part0 else part0 ++ term
        match splitLineAux line term cont limit fuel (r.2.1 + 1) r.2.2 with
        | some parts => some (part :: parts)
        | none => none
      else none
    else some []

/-- `SplitLine` (MessageHeaders.cpp lines 96-125) as called by
`GenerateRawHeaders` with a fresh `MakeHeaderLineFoldingStrategy`; on
failure the empty vector is returned. -/
def splitLine (line term cont : List Char) (limit : Nat) : List (List Char) :=
  (splitLineAux line term cont limit (line.length + 1) 0 true).getD []

/-- The raw line built for one header by `GenerateRawHeaders` line 545:
`name << ": " << value << CRLF`. -/
def rawHeaderLine (h : Header) : List Char :=
  h.name ++ ':' :: ' ' :: h.value ++ CRLFl

/-- `MessageHeaders::GenerateRawHeaders` (MessageHeaders.cpp lines
539-561): emit each header's line (folded when a line-length limit is
set), then the final CRLF. -/
def generateRawHeaders (st : MessageHeadersState) : List Char :=
  (st.headers.foldl (fun acc h =>
    acc ++ (if st.lineLengthLimit > 0
            then (splitLine (rawHeaderLine h) CRLFl [' '] st.lineLengthLimit).flatten
            else rawHeaderLine h)) []) ++ CRLFl

/-- `MessageHeaders::SetLineLimit` (MessageHeaders.cpp lines 563-566). -/
def setLineLimit (st : MessageHeadersState) (limit : Nat) : MessageHeadersState :=
  {st with lineLengthLimit := limit}

/-- Whether the two-byte CRLF sequence occurs anywhere in the list. -/
def containsCRLF : List Char → Bool
  | c1 :: c2 :: rest => (c1 = '\r' && c2 = '\n') || containsCRLF (c2 :: rest)
  | _ => false

/-- The per-header serialized bytes of `GenerateRawHeaders` when no
line-length limit is set: the concatenation of the raw header lines. -/
def serializeEntries (hs : List Header) : List Char :=
  (hs.map rawHeaderLine).flatten

/-- Hypotheses under which a stored header survives the
serialize-then-parse round trip: its name is free of ':' and of the CRLF
pair and does not begin with SP/HT (which would trigger obs-fold
unfolding of its line into the previous value), and its value is free of
the CRLF pair and WSP-normalized. -/
def goodHeader (h : Header) : Bool :=
  h.name.all (fun c => c != ':') && !containsCRLF h.name &&
    !isWSP (h.name.headD ':') && !containsCRLF h.value &&
    stripMarginWhitespace h.value == h.value

/-- Observer mirroring the control flow of the `ParseRawMessage` loop
(MessageHeaders.cpp lines 253-344) and reporting only whether the name
charset check of lines 294-300 ever saw a byte outside 33..126, i.e.
whether that check (as opposed to an `Error` return path) clobbered the
`valid` flag.  The accumulated header value is irrelevant to the control
flow, so the unfolding loop is entered with an empty value. -/
def sawBadNameLoop (raw : List Char) (limit : Nat) : Nat → Nat → Bool
  | 0, _ => false
  | fuel + 1, offset =>
    if offset < raw.length then
      match findCRLF raw offset with
      | none => false
      | some lineTerminator =>
        if limit > 0 && (lineTerminator - offset) + 2 > limit then false
        else if lineTerminator = offset then false
        else
          match findCharFrom raw ':' offset with
          | none => false
          | some nameValueDelimiter =>
            if (substr raw offset (nameValueDelimiter - offset)).all goodNameChar then
              match unfoldLoop raw (raw.length + 1) [] (lineTerminator + 2) lineTerminator with
              | .error _ => false
              | .ok (_, offset') => sawBadNameLoop raw limit fuel offset'
            else true
    else false

/-- Whether a `ParseRawMessage` call on `raw` sees a header-name byte
outside 33..126. -/
def sawBadName (raw : List Char) (limit : Nat) : Bool :=
  sawBadNameLoop raw limit (raw.length + 1) 0

/-- The mutating operations of the public API considered by the store
invariant. -/
inductive HeaderOp
  | parse (raw : List Char)
  | set (name value : List Char)
  | add (name value : List Char)
  | remove (name : List Char)

/-- Apply one API operation to the store state. -/
def applyOp (st : MessageHeadersState) : HeaderOp → MessageHeadersState
  | .parse raw => (parseRawMessage st raw).2.2
  | .set n v => {st with headers := setHeader st.headers n v}
  | .add n v => {st with headers := addHeader st.headers n v}
  | .remove n => {st with headers := removeHeader st.headers n}

/-- Arguments of `set`/`add` respect the wire-format invariant: name
bytes in 33..126 and no CRLF pair inside the value. -/
def opOK : HeaderOp → Bool
  | .parse _ => true
  | .set n v => n.all goodNameChar && !containsCRLF v
  | .add n v => n.all goodNameChar && !containsCRLF v
  | .remove _ => true

/-- The wire-format invariant on one stored header. -/
def headerInv (h : Header) : Bool :=
  h.name.all goodNameChar && !containsCRLF h.value

/-- The wire-format invariant on the whole store. -/
def storeInv (hs : List Header) : Bool := hs.all headerInv

theorem containsCRLF_cons_cons (x y : Char) (l : List Char) :
    containsCRLF (x :: y :: l) = ((x = '\r' && y = '\n') || containsCRLF (y :: l)) := rfl

theorem containsCRLF_cons_false {x : Char} {l : List Char}
    (h : containsCRLF (x :: l) = false) : containsCRLF l = false := by
  cases l with
  | nil => simp [containsCRLF]
  | cons y r =>
    rw [containsCRLF_cons_cons] at h
    exact (Bool.or_eq_false_iff.mp h).2

theorem containsCRLF_cons_pair {x y : Char} {l : List Char}
    (h : containsCRLF (x :: y :: l) = false) : ¬(x = '\r' ∧ y = '\n') := by
  rw [containsCRLF_cons_cons] at h
  have h1 := (Bool.or_eq_false_iff.mp h).1
  intro hc
  simp [hc.1, hc.2] at h1

theorem containsCRLF_append_cons {a b : List Char} {c : Char} (hc : c ≠ '\n')
    (ha : containsCRLF a = false) (hb : containsCRLF (c :: b) = false) :
    containsCRLF (a ++ c :: b) = false := by
  induction a with
  | nil => simpa using hb
  | cons x a' ih =>
    have htail := ih (containsCRLF_cons_false ha)
    cases a' with
    | nil =>
      simp only [List.nil_append] at htail
      simp only [List.cons_append, List.nil_append, containsCRLF_cons_cons, htail, Bool.or_false]
      simp [hc]
    | cons y a'' =>
      have hp := containsCRLF_cons_pair ha
      simp only [List.cons_append] at htail ⊢
      rw [containsCRLF_cons_cons, htail, Bool.or_false]
      by_cases hx : x = '\r'
      · by_cases hy : y = '\n'
        · exact absurd ⟨hx, hy⟩ hp
        · simp [hy]
      · simp [hx]

theorem containsCRLF_append_left {a b : List Char}
    (h : containsCRLF (a ++ b) = false) : containsCRLF a = false := by
  induction a with
  | nil => simp [containsCRLF]
  | cons x a' ih =>
    cases a' with
    | nil => simp [containsCRLF]
    | cons y a'' =>
      simp only [List.cons_append] at h
      have hp := containsCRLF_cons_pair h
      have ht := ih (containsCRLF_cons_false h)
      rw [containsCRLF_cons_cons, ht, Bool.or_false]
      by_cases hx : x = '\r'
      · by_cases hy : y = '\n'
        · exact absurd ⟨hx, hy⟩ hp
        · simp [hy]
      · simp [hx]

theorem containsCRLF_append_right {a b : List Char}
    (h : containsCRLF (a ++ b) = false) : containsCRLF b = false := by
  induction a with
  | nil => simpa using h
  | cons x a' ih => exact ih (containsCRLF_cons_false h)

theorem pair_of_containsCRLF {l : List Char} (h : containsCRLF l = true) :
    ∃ i, l[i]? = some '\r' ∧ l[i + 1]? = some '\n' := by
  induction l with
  | nil => simp [containsCRLF] at h
  | cons x l' ih =>
    cases l' with
    | nil => simp [containsCRLF] at h
    | cons y r =>
      rw [containsCRLF_cons_cons] at h
      rcases Bool.or_eq_true_iff.mp h with h | h
      · refine ⟨0, ?_⟩
        simp only [Bool.and_eq_true, decide_eq_true_eq] at h
        simp [h.1, h.2]
      · obtain ⟨i, h1, h2⟩ := ih h
        exact ⟨i + 1, by simpa using h1, by simpa using h2⟩

theorem findCRLFAux_cons_cons (x y : Char) (l : List Char) :
    findCRLFAux (x :: y :: l) =
      if x = '\r' && y = '\n' then some 0 else (findCRLFAux (y :: l)).map (· + 1) := rfl

theorem findCRLFAux_some {l : List Char} {i : Nat} (h : findCRLFAux l = some i) :
    l[i]? = some '\r' ∧ l[i + 1]? = some '\n' := by
  induction l generalizing i with
  | nil => simp [findCRLFAux] at h
  | cons x l' ih =>
    cases l' with
    | nil => simp [findCRLFAux] at h
    | cons y r =>
      rw [findCRLFAux_cons_cons] at h
      by_cases hxy : (x = '\r' && y = '\n') = true
      · rw [if_pos hxy] at h
        cases h
        simp only [Bool.and_eq_true, decide_eq_true_eq] at hxy
        simp [hxy.1, hxy.2]
      · rw [if_neg hxy] at h
        obtain ⟨j, hj, hji⟩ := Option.map_eq_some'.mp h
        obtain ⟨h1, h2⟩ := ih hj
        subst hji
        exact ⟨by simpa using h1, by simpa using h2⟩

theorem findCRLFAux_min {l : List Char} {i : Nat} (h : findCRLFAux l = some i) :
    ∀ j, j < i → ¬(l[j]? = some '\r' ∧ l[j + 1]? = some '\n') := by
  induction l generalizing i with
  | nil => simp [findCRLFAux] at h
  | cons x l' ih =>
    cases l' with
    | nil => simp [findCRLFAux] at h
    | cons y r =>
      rw [findCRLFAux_cons_cons] at h
      by_cases hxy : (x = '\r' && y = '\n') = true
      · rw [if_pos hxy] at h
        cases h
        omega
      · rw [if_neg hxy] at h
        obtain ⟨j', hj', hji⟩ := Option.map_eq_some'.mp h
        subst hji
        intro j hj hpair
        match j with
        | 0 =>
          simp only [List.getElem?_cons_zero, List.getElem?_cons_succ, Option.some_inj] at hpair
          simp [hpair.1, hpair.2] at hxy
        | k + 1 =>
          have hk : k < j' := by omega
          exact ih hj' k hk (by simpa using hpair)

theorem findCRLFAux_none_iff {l : List Char} :
    findCRLFAux l = none ↔ containsCRLF l = false := by
  induction l with
  | nil => simp [findCRLFAux, containsCRLF]
  | cons x l' ih =>
    cases l' with
    | nil => simp [findCRLFAux, containsCRLF]
    | cons y r =>
      rw [findCRLFAux_cons_cons, containsCRLF_cons_cons]
      by_cases hxy : (x = '\r' && y = '\n') = true
      · simp [hxy]
      · simp only [if_neg hxy, Option.map_eq_none', ih,
          Bool.or_eq_false_iff]
        constructor
        · intro hcf
          exact ⟨by revert hxy; cases (x = '\r' && y = '\n') <;> simp, hcf⟩
        · intro hcf
          exact hcf.2

theorem findCRLFAux_under {p : List Char} (r : List Char) (hp : containsCRLF p = false) :
    findCRLFAux (p ++ '\r' :: '\n' :: r) = some p.length := by
  induction p with
  | nil => simp [findCRLFAux_cons_cons]
  | cons x p' ih =>
    have hp' := containsCRLF_cons_false hp
    cases p' with
    | nil =>
      simp only [List.cons_append, List.nil_append]
      rw [findCRLFAux_cons_cons]
      have hc1 : (x = '\r' && ('\r' : Char) = '\n') = false := by simp
      rw [hc1]
      have hc2 : findCRLFAux ('\r' :: '\n' :: r) = some 0 := by
        rw [findCRLFAux_cons_cons]
        simp
      simp [hc2]
    | cons y p'' =>
      have hpair := containsCRLF_cons_pair hp
      simp only [List.cons_append] at ih ⊢
      rw [findCRLFAux_cons_cons]
      have hxy : (x = '\r' && y = '\n') = false := by
        by_cases hx : x = '\r'
        · by_cases hy : y = '\n'
          · exact absurd ⟨hx, hy⟩ hpair
          · simp [hy]
        · simp [hx]
      rw [hxy]
      simp only [Bool.false_eq_true, if_false, ih hp', Option.map_some']
      simp

theorem findCRLF_eq {s : List Char} {off : Nat} {p r : List Char}
    (hdrop : s.drop off = p ++ '\r' :: '\n' :: r) (hp : containsCRLF p = false) :
    findCRLF s off = some (off + p.length) := by
  unfold findCRLF
  rw [hdrop, findCRLFAux_under r hp]
  simp [Nat.add_comm]

theorem findCRLF_some {s : List Char} {off t : Nat} (h : findCRLF s off = some t) :
    off ≤ t ∧ s[t]? = some '\r' ∧ s[t + 1]? = some '\n' ∧ t + 2 ≤ s.length ∧
      ∀ j, off ≤ j → j < t → ¬(s[j]? = some '\r' ∧ s[j + 1]? = some '\n') := by
  unfold findCRLF at h
  obtain ⟨i, hi, hit⟩ := Option.map_eq_some'.mp h
  subst hit
  obtain ⟨h1, h2⟩ := findCRLFAux_some hi
  rw [List.getElem?_drop] at h1 h2
  obtain ⟨hlen, -⟩ := List.getElem?_eq_some.mp h2
  have e1 : off + i = i + off := Nat.add_comm _ _
  have e2 : off + (i + 1) = i + off + 1 := by omega
  rw [e1] at h1
  rw [e2] at h2
  refine ⟨by omega, h1, h2, by omega, ?_⟩
  intro j hoffj hji hpair
  have hmin := findCRLFAux_min hi (j - off) (by omega)
  apply hmin
  constructor
  · rw [List.getElem?_drop]
    have e3 : off + (j - off) = j := by omega
    rw [e3]
    exact hpair.1
  · rw [List.getElem?_drop]
    have e4 : off + (j - off + 1) = j + 1 := by omega
    rw [e4]
    exact hpair.2

theorem findCRLF_none_iff {s : List Char} {off : Nat} :
    findCRLF s off = none ↔ containsCRLF (s.drop off) = false := by
  unfold findCRLF
  rw [Option.map_eq_none']
  exact findCRLFAux_none_iff

theorem findCharAux_under {c : Char} {p : List Char} (r : List Char)
    (hp : ∀ x ∈ p, x ≠ c) : findCharAux c (p ++ c :: r) = some p.length := by
  induction p with
  | nil => simp [findCharAux]
  | cons x p' ih =>
    have hx : x ≠ c := hp x (by simp)
    have ht := ih (fun y hy => hp y (by simp [hy]))
    simp only [List.cons_append, findCharAux, if_neg hx, ht, Option.map_some']
    simp
    exact ht

theorem findCharAux_some {c : Char} {l : List Char} {i : Nat}
    (h : findCharAux c l = some i) : l[i]? = some c := by
  induction l generalizing i with
  | nil => simp [findCharAux] at h
  | cons x l' ih =>
    by_cases hx : x = c
    · simp [findCharAux, hx] at h
      subst hx
      cases h
      simp
    · simp only [findCharAux, if_neg hx] at h
      obtain ⟨j, hj, hji⟩ := Option.map_eq_some'.mp h
      subst hji
      simpa using ih hj

theorem findCharFrom_eq {s : List Char} {off : Nat} {c : Char} {p r : List Char}
    (hdrop : s.drop off = p ++ c :: r) (hp : ∀ x ∈ p, x ≠ c) :
    findCharFrom s c off = some (off + p.length) := by
  unfold findCharFrom
  rw [hdrop, findCharAux_under r hp]
  simp [Nat.add_comm]

theorem findCharFrom_some {s : List Char} {c : Char} {off d : Nat}
    (h : findCharFrom s c off = some d) : off ≤ d ∧ s[d]? = some c := by
  unfold findCharFrom at h
  obtain ⟨i, hi, hit⟩ := Option.map_eq_some'.mp h
  subst hit
  have h1 := findCharAux_some hi
  rw [List.getElem?_drop, Nat.add_comm] at h1
  exact ⟨by omega, h1⟩

theorem findNotWSPAux_cons_wsp {x : Char} (l : List Char) (hx : isWSP x = true) :
    findNotWSPAux (x :: l) = (findNotWSPAux l).map (· + 1) := by
  simp [findNotWSPAux, hx]

theorem findNotWSPAux_cons_not {x : Char} (l : List Char) (hx : isWSP x = false) :
    findNotWSPAux (x :: l) = some 0 := by
  simp [findNotWSPAux, hx]

theorem findNotWSPAux_le {l : List Char} {k : Nat} {x : Char}
    (hk : l[k]? = some x) (hx : isWSP x = false) :
    ∃ i, findNotWSPAux l = some i ∧ i ≤ k := by
  induction l generalizing k with
  | nil => simp at hk
  | cons y l' ih =>
    by_cases hy : isWSP y = true
    · match k with
      | 0 =>
        simp only [List.getElem?_cons_zero, Option.some_inj] at hk
        rw [hk] at hy
        rw [hy] at hx
        cases hx
      | k' + 1 =>
        obtain ⟨i, hi, hik⟩ := ih (by simpa using hk)
        exact ⟨i + 1, by rw [findNotWSPAux_cons_wsp l' hy, hi]; rfl, by omega⟩
    · exact ⟨0, findNotWSPAux_cons_not l' (by simpa using hy), by omega⟩

theorem findNotWSPAux_skip {l : List Char} {i : Nat} (h : findNotWSPAux l = some i) :
    ∀ j, j < i → ∃ x, l[j]? = some x ∧ isWSP x = true := by
  induction l generalizing i with
  | nil => simp [findNotWSPAux] at h
  | cons y l' ih =>
    by_cases hy : isWSP y = true
    · rw [findNotWSPAux_cons_wsp l' hy] at h
      obtain ⟨i', hi', hii⟩ := Option.map_eq_some'.mp h
      subst hii
      intro j hj
      match j with
      | 0 => exact ⟨y, by simp, hy⟩
      | j' + 1 =>
        obtain ⟨x, hx1, hx2⟩ := ih hi' j' (by omega)
        exact ⟨x, by simpa using hx1, hx2⟩
    · rw [findNotWSPAux_cons_not l' (by simpa using hy)] at h
      cases h
      omega

theorem findNotWSPFrom_le {s : List Char} {off k : Nat} {x : Char}
    (hk : s[k]? = some x) (hx : isWSP x = false) (hoff : off ≤ k) :
    ∃ i, findNotWSPFrom s off = some i ∧ off ≤ i ∧ i ≤ k := by
  have hk' : (s.drop off)[k - off]? = some x := by
    rw [List.getElem?_drop]
    have e : off + (k - off) = k := by omega
    rw [e]
    exact hk
  obtain ⟨i, hi, hik⟩ := findNotWSPAux_le hk' hx
  refine ⟨i + off, ?_, by omega, by omega⟩
  unfold findNotWSPFrom
  rw [hi]
  rfl

theorem findNotWSPFrom_skip {s : List Char} {off i : Nat}
    (h : findNotWSPFrom s off = some i) :
    off ≤ i ∧ ∀ j, off ≤ j → j < i → ∃ x, s[j]? = some x ∧ isWSP x = true := by
  unfold findNotWSPFrom at h
  obtain ⟨i', hi', hii⟩ := Option.map_eq_some'.mp h
  subst hii
  refine ⟨by omega, ?_⟩
  intro j hoffj hji
  obtain ⟨x, hx1, hx2⟩ := findNotWSPAux_skip hi' (j - off) (by omega)
  rw [List.getElem?_drop] at hx1
  have e : off + (j - off) = j := by omega
  rw [e] at hx1
  exact ⟨x, hx1, hx2⟩

theorem containsCRLF_take {l : List Char} (n : Nat) (h : containsCRLF l = false) :
    containsCRLF (l.take n) = false := by
  apply @containsCRLF_append_left _ (l.drop n)
  rw [List.take_append_drop]
  exact h

theorem dropWhile_eq_drop_k (p : Char → Bool) (l : List Char) :
    ∃ k, l.dropWhile p = l.drop k := by
  induction l with
  | nil => exact ⟨0, rfl⟩
  | cons x l' ih =>
    by_cases hx : p x = true
    · obtain ⟨k, hk⟩ := ih
      exact ⟨k + 1, by simp [List.dropWhile_cons, hx, hk]⟩
    · exact ⟨0, by simp [List.dropWhile_cons, hx]⟩

theorem containsCRLF_dropWhile {p : Char → Bool} {l : List Char}
    (h : containsCRLF l = false) : containsCRLF (l.dropWhile p) = false := by
  induction l with
  | nil => simpa using h
  | cons x l' ih =>
    rw [List.dropWhile_cons]
    by_cases hx : p x = true
    · simp only [hx, if_true]
      exact ih (containsCRLF_cons_false h)
    · simp only [hx, Bool.false_eq_true, if_false]
      exact h

theorem containsCRLF_strip {l : List Char} (h : containsCRLF l = false) :
    containsCRLF (stripMarginWhitespace l) = false := by
  unfold stripMarginWhitespace
  have hd : containsCRLF (l.dropWhile isWSP) = false := containsCRLF_dropWhile h
  obtain ⟨k, hk⟩ := dropWhile_eq_drop_k isWSP (l.dropWhile isWSP).reverse
  rw [hk, List.drop_reverse, List.reverse_reverse]
  exact containsCRLF_take _ hd

theorem strip_cons_wsp {c : Char} (l : List Char) (hc : isWSP c = true) :
    stripMarginWhitespace (c :: l) = stripMarginWhitespace l := by
  unfold stripMarginWhitespace
  rw [List.dropWhile_cons, if_pos hc]

theorem head_not_wsp_of_dropWhile_eq_self {c : Char} {r : List Char}
    (h : (c :: r).dropWhile isWSP = c :: r) : isWSP c = false := by
  by_cases hc : isWSP c = true
  · rw [List.dropWhile_cons, if_pos hc] at h
    have hlen : (r.dropWhile isWSP).length ≤ r.length :=
      (List.dropWhile_sublist _).length_le
    have : (r.dropWhile isWSP).length = r.length + 1 := by rw [h]; simp
    omega
  · simpa using hc

theorem dropWhile_eq_self_of_strip {l : List Char} (h : stripMarginWhitespace l = l) :
    l.dropWhile isWSP = l := by
  have hsub : (l.dropWhile isWSP).Sublist l := List.dropWhile_sublist _
  apply hsub.eq_of_length
  have h1 : (l.dropWhile isWSP).length ≤ l.length := hsub.length_le
  have h2 : (stripMarginWhitespace l).length ≤ (l.dropWhile isWSP).length := by
    unfold stripMarginWhitespace
    have hS : (((l.dropWhile isWSP).reverse).dropWhile isWSP).Sublist
        ((l.dropWhile isWSP).reverse) := List.dropWhile_sublist _
    simpa using hS.length_le
  rw [h] at h2
  omega

theorem reverse_dropWhile_eq_self_of_strip {l : List Char}
    (h : stripMarginWhitespace l = l) : l.reverse.dropWhile isWSP = l.reverse := by
  have hd := dropWhile_eq_self_of_strip h
  unfold stripMarginWhitespace at h
  rw [hd] at h
  have := congrArg List.reverse h
  rwa [List.reverse_reverse] at this

theorem strip_eq_self_of {l : List Char} (h1 : l.dropWhile isWSP = l)
    (h2 : l.reverse.dropWhile isWSP = l.reverse) : stripMarginWhitespace l = l := by
  unfold stripMarginWhitespace
  rw [h1, h2, List.reverse_reverse]

theorem strip_append_sep {v1 v2 : List Char} (hv1 : stripMarginWhitespace v1 = v1)
    (h1 : v1 ≠ []) (hv2 : stripMarginWhitespace v2 = v2) (h2 : v2 ≠ []) :
    stripMarginWhitespace (v1 ++ ' ' :: v2) = v1 ++ ' ' :: v2 := by
  apply strip_eq_self_of
  · obtain ⟨c, r, hc⟩ : ∃ c r, v1 = c :: r := by
      cases v1 with
      | nil => exact absurd rfl h1
      | cons c r => exact ⟨c, r, rfl⟩
    subst hc
    have hcw : isWSP c = false :=
      head_not_wsp_of_dropWhile_eq_self (dropWhile_eq_self_of_strip hv1)
    simp [List.dropWhile_cons, hcw]
  · obtain ⟨c, r, hc⟩ : ∃ c r, v2.reverse = c :: r := by
      cases hr : v2.reverse with
      | nil =>
        have : v2 = [] := by
          have := congrArg List.reverse hr
          simpa using this
        exact absurd this h2
      | cons c r => exact ⟨c, r, rfl⟩
    have hcw : isWSP c = false := by
      apply @head_not_wsp_of_dropWhile_eq_self _ r
      rw [← hc]
      exact reverse_dropWhile_eq_self_of_strip hv2
    rw [List.reverse_append]
    have e : (' ' :: v2).reverse = v2.reverse ++ [' '] := by simp
    rw [e, hc]
    simp [List.dropWhile_cons, hcw]

theorem nameEqual_refl (l : List Char) : nameEqual l l = true := by
  induction l with
  | nil => rfl
  | cons x r ih => simp [nameEqual, ih]

theorem endsWith_append (a t : List Char) : endsWith (a ++ t) t = true := by
  unfold endsWith
  have h1 : t.length ≤ (a ++ t).length := by simp
  have h2 : (a ++ t).drop ((a ++ t).length - t.length) = t := by
    have e : (a ++ t).length - t.length = a.length := by simp
    rw [e, List.drop_left]
  simp [h1, h2]

theorem unfoldLoop_ok_le {raw : List Char} {fuel : Nat} {v : List Char} {off lt : Nat}
    {v' : List Char} {off' : Nat} (hol : off = lt + 2)
    (h : unfoldLoop raw fuel v off lt = .ok (v', off')) : off ≤ off' := by
  induction fuel generalizing v off lt with
  | zero => simp [unfoldLoop] at h
  | succ fuel ih =>
    rw [unfoldLoop] at h
    split at h
    · simp at h
    · rename_i t2 hfind
      dsimp only at h
      split at h
      · rename_i hcond
        have ht2 := (findCRLF_some hfind).1
        have := ih rfl h
        omega
      · simp only [Except.ok.injEq, Prod.mk.injEq] at h
        omega

theorem finishHeader_exit {st : MessageHeadersState} {valid' : Bool} {name : List Char}
    {r : Except Nat (List Char × Nat)} {s : ParseState} {b : Nat} {st' : MessageHeadersState}
    (h : finishHeader st valid' name r = .exit s b st') :
    st'.headers = st.headers ∧ st'.lineLengthLimit = st.lineLengthLimit ∧
      st'.valid = valid' := by
  rcases r with o | ⟨v1, o1⟩
  · cases h
    exact ⟨rfl, rfl, rfl⟩
  · simp [finishHeader] at h

theorem finishHeader_next {st : MessageHeadersState} {valid' : Bool} {name : List Char}
    {r : Except Nat (List Char × Nat)} {off' : Nat} {st' : MessageHeadersState}
    (h : finishHeader st valid' name r = .next off' st') :
    st'.lineLengthLimit = st.lineLengthLimit ∧ st'.valid = valid' ∧
      ∃ v1, r = .ok (v1, off') ∧
        st'.headers = st.headers ++ [⟨name, stripMarginWhitespace v1⟩] := by
  rcases r with o | ⟨v1, o1⟩
  · simp [finishHeader] at h
  · cases h
    exact ⟨rfl, rfl, v1, rfl, rfl⟩

theorem parseStep_exit_shape {raw : List Char} {offset : Nat} {st : MessageHeadersState}
    {s : ParseState} {b : Nat} {st' : MessageHeadersState}
    (h : parseStep raw offset st = .exit s b st') :
    st'.headers = st.headers ∧ st'.lineLengthLimit = st.lineLengthLimit ∧
      (st'.valid = true → st.valid = true) := by
  unfold parseStep at h
  repeat' split at h
  all_goals first
    | (cases h
       simp)
    | (obtain ⟨h1, h2, h3⟩ := finishHeader_exit h
       exact ⟨h1, h2, by
         rw [h3]
         exact fun hv => (Bool.and_eq_true_iff.mp hv).1⟩)

theorem parseStep_next_shape {raw : List Char} {offset : Nat} {st : MessageHeadersState}
    {off' : Nat} {st' : MessageHeadersState}
    (h : parseStep raw offset st = .next off' st') :
    offset < off' ∧ st'.lineLengthLimit = st.lineLengthLimit ∧
      (st'.valid = true → st.valid = true) ∧ ∃ hd, st'.headers = st.headers ++ [hd] := by
  unfold parseStep at h
  split at h
  · split at h <;> simp at h
  · rename_i lt hfind
    split at h
    · simp at h
    · split at h
      · simp at h
      · rename_i hlim hblank
        split at h
        · simp at h
        · rename_i d hdelim
          have hlt := (findCRLF_some hfind).1
          have hne : lt ≠ offset := hblank
          repeat' split at h
          all_goals
            obtain ⟨h2, h3, v1, hr, h4⟩ := finishHeader_next h
          all_goals
            have hle := unfoldLoop_ok_le rfl hr
          all_goals
            refine ⟨by omega, h2, ?_, ⟨_, h4⟩⟩
          all_goals
            rw [h3]
          all_goals
            exact fun hv => (Bool.and_eq_true_iff.mp hv).1

theorem parseLoop_frame (raw : List Char) : ∀ fuel offset st,
    ∃ tl, (parseLoop raw fuel offset st).2.2.headers = st.headers ++ tl ∧
      (parseLoop raw fuel offset st).2.2.lineLengthLimit = st.lineLengthLimit := by
  intro fuel
  induction fuel with
  | zero => intro offset st; exact ⟨[], by simp [parseLoop], by simp [parseLoop]⟩
  | succ fuel ih =>
    intro offset st
    rw [parseLoop]
    split
    · rcases hstep : parseStep raw offset st with _ | ⟨off', st'⟩
      · rename_i s b st'
        obtain ⟨h1, h2, -⟩ := parseStep_exit_shape hstep
        exact ⟨[], by simp [h1], by simp [h2]⟩
      · obtain ⟨-, h2, -, hd, h4⟩ := parseStep_next_shape hstep
        obtain ⟨tl', ht1, ht2⟩ := ih off' st'
        refine ⟨[hd] ++ tl', ?_, ?_⟩
        · rw [ht1, h4, List.append_assoc]
        · rw [ht2, h2]
    · exact ⟨[], by simp, by simp⟩

theorem parseLoop_valid_mono (raw : List Char) : ∀ fuel offset st,
    (parseLoop raw fuel offset st).2.2.valid = true → st.valid = true := by
  intro fuel
  induction fuel with
  | zero => intro offset st h; simpa [parseLoop] using h
  | succ fuel ih =>
    intro offset st
    rw [parseLoop]
    split
    · rcases hstep : parseStep raw offset st with _ | ⟨off', st'⟩
      · rename_i s b st'
        intro h
        exact (parseStep_exit_shape hstep).2.2 h
      · intro h
        exact (parseStep_next_shape hstep).2.2.1 (ih off' st' h)
    · exact fun h => h

theorem parseStep_no_colon {raw : List Char} {st : MessageHeadersState} {t : Nat}
    (hfind : findCRLF raw 0 = some t) (ht : t ≠ 0)
    (hfit : st.lineLengthLimit = 0 ∨ t + 2 ≤ st.lineLengthLimit)
    (hcolon : findCharFrom raw ':' 0 = none) :
    parseStep raw 0 st = .exit .Error 0 {st with valid := false} := by
  have hc1 : (decide (st.lineLengthLimit > 0) &&
      decide (t - 0 + 2 > st.lineLengthLimit)) = false := by
    rcases hfit with h0 | hle
    · simp [h0]
    · simp only [Bool.and_eq_false_iff, decide_eq_false_iff_not]
      right
      omega
  unfold parseStep
  rw [hfind]
  simp only [hc1, Bool.false_eq_true, if_false, if_neg ht, hcolon]

theorem parseRawMessage_of_step_exit {raw : List Char} {st : MessageHeadersState}
    {s : ParseState} {b : Nat} {st' : MessageHeadersState} (hlen : 0 < raw.length)
    (h : parseStep raw 0 st = .exit s b st') : parseRawMessage st raw = (s, b, st') := by
  unfold parseRawMessage
  rw [parseLoop, if_pos hlen, h]

theorem parseStep_too_long {raw : List Char} {st : MessageHeadersState} {t : Nat}
    (hfind : findCRLF raw 0 = some t) (hpos : 0 < st.lineLengthLimit)
    (hgt : st.lineLengthLimit < t + 2) :
    parseStep raw 0 st = .exit .Error 0 {st with valid := false} := by
  unfold parseStep
  rw [hfind]
  have hc : (decide (st.lineLengthLimit > 0) &&
      decide (t - 0 + 2 > st.lineLengthLimit)) = true := by
    simp only [Bool.and_eq_true, decide_eq_true_eq]
    omega
  simp only [hc, if_true]

theorem parseStep_no_crlf_error {raw : List Char} {st : MessageHeadersState}
    (hfind : findCRLF raw 0 = none) (hpos : 0 < st.lineLengthLimit)
    (hgt : st.lineLengthLimit < raw.length + 2) :
    parseStep raw 0 st = .exit .Error 0 {st with valid := false} := by
  unfold parseStep
  rw [hfind]
  have hc : (decide (st.lineLengthLimit > 0) &&
      decide (raw.length - 0 + 2 > st.lineLengthLimit)) = true := by
    simp only [Bool.and_eq_true, decide_eq_true_eq]
    omega
  simp only [hc, if_true]

theorem parseStep_no_crlf_incomplete {raw : List Char} {st : MessageHeadersState}
    (hfind : findCRLF raw 0 = none)
    (hfit : st.lineLengthLimit = 0 ∨ raw.length + 2 ≤ st.lineLengthLimit) :
    parseStep raw 0 st = .exit .Incomplete 0 st := by
  unfold parseStep
  rw [hfind]
  have hc : (decide (st.lineLengthLimit > 0) &&
      decide (raw.length - 0 + 2 > st.lineLengthLimit)) = false := by
    rcases hfit with h0 | hle
    · simp [h0]
    · simp only [Bool.and_eq_false_iff, decide_eq_false_iff_not]
      right
      omega
  simp only [hc, Bool.false_eq_true, if_false]
  simp

/-- C10: `ParseRawMessage` never removes or modifies entries already in
the store: the resulting header list is the original list with the newly
parsed entries appended after it (so parse never clears the store and two
successive parses accumulate entries), and the line-length limit is
unchanged. -/
theorem claim_C10 (st : MessageHeadersState) (raw : List Char) :
    ∃ tl, (parseRawMessage st raw).2.2.headers = st.headers ++ tl ∧
      (parseRawMessage st raw).2.2.lineLengthLimit = st.lineLengthLimit :=
  parseLoop_frame raw (raw.length + 1) 0 st

/-- C7 (amended): `ParseRawMessage` returns Error for a missing colon
only when the input from the current offset contains no ':' byte at all:
for a non-empty CRLF-terminated first line within the line-length limit,
if no ':' occurs anywhere in the input, the parse returns Error with the
valid flag cleared.  (When a ':' occurs anywhere later — even beyond the
line's CRLF — no Error is raised; the name is taken across the
terminator, see the counterexample.) -/
theorem claim_C7 (st : MessageHeadersState) (raw : List Char) (t : Nat)
    (hfind : findCRLF raw 0 = some t) (ht : t ≠ 0)
    (hfit : st.lineLengthLimit = 0 ∨ t + 2 ≤ st.lineLengthLimit)
    (hcolon : findCharFrom raw ':' 0 = none) :
    parseRawMessage st raw = (.Error, 0, {st with valid := false}) := by
  have hlen : 0 < raw.length := by
    have := (findCRLF_some hfind).2.2.2.1
    omega
  exact parseRawMessage_of_step_exit hlen (parseStep_no_colon hfind ht hfit hcolon)

/-- C7 counterexample: in the input "abc\r\nX: y\r\n\r\n" the first
header line "abc" is non-empty, CRLF-terminated (terminator at index 3)
and contains no ':' — its first ':' in the message is at index 6, beyond
the terminator — yet ParseRawMessage returns Complete, not Error (the
name is taken across the line terminator). -/
theorem claim_C7_counterexample :
    findCRLF ['a', 'b', 'c', '\r', '\n', 'X', ':', ' ', 'y', '\r', '\n', '\r', '\n'] 0 =
        some 3 ∧
      findCharFrom ['a', 'b', 'c', '\r', '\n', 'X', ':', ' ', 'y', '\r', '\n', '\r', '\n']
          ':' 0 = some 6 ∧
      (parseRawMessage emptyState
          ['a', 'b', 'c', '\r', '\n', 'X', ':', ' ', 'y', '\r', '\n', '\r', '\n']).1 =
        .Complete ∧
      (parseRawMessage emptyState
          ['a', 'b', 'c', '\r', '\n', 'X', ':', ' ', 'y', '\r', '\n', '\r', '\n']).1 ≠
        .Error := by
  decide

/-- C7 witness: a colon-free input errors. -/
theorem claim_C7_witness :
    parseRawMessage ⟨[], 0, true⟩ ['a', 'b', 'c', '\r', '\n'] = (.Error, 0, ⟨[], 0, false⟩) :=
  claim_C7 ⟨[], 0, true⟩ ['a', 'b', 'c', '\r', '\n'] 3 (by decide) (by decide)
    (Or.inl rfl) (by decide)

theorem drop_add_left (a b : List Char) (n : Nat) : (a ++ b).drop (a.length + n) = b.drop n := by
  rw [← List.drop_drop, List.drop_left]

theorem charAt_of_drop {s : List Char} {n : Nat} {c : Char} {rest : List Char}
    (h : s.drop n = c :: rest) : charAt s n = c := by
  unfold charAt
  rw [List.getD_eq_getElem?_getD]
  have h0 : s[n]? = some c := by
    have := List.getElem?_drop s n 0
    rw [h] at this
    simpa using this.symm
  rw [h0]
  rfl

theorem goodHeader_spec {h : Header} (hg : goodHeader h = true) :
    (∀ x ∈ h.name, x ≠ ':') ∧ containsCRLF h.name = false ∧
      isWSP (h.name.headD ':') = false ∧ containsCRLF h.value = false ∧
      stripMarginWhitespace h.value = h.value := by
  unfold goodHeader at hg
  simp only [Bool.and_eq_true, List.all_eq_true, Bool.not_eq_true', beq_iff_eq, bne_iff_ne,
    ne_eq] at hg
  obtain ⟨⟨⟨⟨h1, h2⟩, h3⟩, h4⟩, h5⟩ := hg
  exact ⟨fun x hx => h1 x hx, h2, h3, h4, h5⟩

theorem serializeEntries_cons (h : Header) (hs : List Header) :
    serializeEntries (h :: hs) = rawHeaderLine h ++ serializeEntries hs := by
  simp [serializeEntries]

theorem containsCRLF_name_colon_value {name v : List Char}
    (hn : containsCRLF name = false) (hv : containsCRLF v = false) :
    containsCRLF (name ++ ':' :: ' ' :: v) = false := by
  apply containsCRLF_append_cons (by decide) hn
  rw [containsCRLF_cons_cons]
  have hsp : containsCRLF (' ' :: v) = false := by
    cases hvv : v with
    | nil => decide
    | cons c r =>
      rw [containsCRLF_cons_cons]
      rw [hvv] at hv
      simp [hv]
  simp [hsp]

theorem containsCRLF_headerLine {h : Header} (hg : goodHeader h = true) :
    containsCRLF (h.name ++ ':' :: ' ' :: h.value) = false := by
  obtain ⟨-, h2, -, h4, -⟩ := goodHeader_spec hg
  exact containsCRLF_name_colon_value h2 h4

theorem unfoldLoop_serialized {raw : List Char} {t : Nat} {v : List Char} {R : List Char}
    (fuel : Nat) (hdropR : raw.drop (t + 2) = R)
    (hR : R = CRLFl ∨ ∃ h2 R2, R = rawHeaderLine h2 ++ R2 ∧ goodHeader h2 = true) :
    unfoldLoop raw (fuel + 1) v (t + 2) t = .ok (v, t + 2) := by
  rw [unfoldLoop]
  rcases hR with hR | ⟨h2, R2, hR, hg2⟩
  · have hfind : findCRLF raw (t + 2) = some (t + 2 + 0) := by
      apply @findCRLF_eq _ _ [] []
      · rw [hdropR, hR]
        rfl
      · decide
    rw [hfind]
    simp
  · have hshape2 : raw.drop (t + 2) =
        (h2.name ++ ':' :: ' ' :: h2.value) ++ '\r' :: '\n' :: (h2.value.drop h2.value.length ++ R2) := by
      rw [hdropR, hR]
      simp [rawHeaderLine, CRLFl, List.append_assoc]
    have hfind : findCRLF raw (t + 2) =
        some (t + 2 + (h2.name ++ ':' :: ' ' :: h2.value).length) :=
      findCRLF_eq hshape2 (containsCRLF_headerLine hg2)
    rw [hfind]
    have hws : isWSP (charAt raw (t + 2)) = false := by
      obtain ⟨-, -, h3, -, -⟩ := goodHeader_spec hg2
      cases hn : h2.name with
      | nil =>
        have : raw.drop (t + 2) = ':' :: (' ' :: h2.value ++ '\r' :: '\n' :: (h2.value.drop h2.value.length ++ R2)) := by
          rw [hshape2, hn]
          simp
        rw [charAt_of_drop this]
        decide
      | cons c rest =>
        have : raw.drop (t + 2) = c :: (rest ++ ':' :: ' ' :: h2.value ++ '\r' :: '\n' :: (h2.value.drop h2.value.length ++ R2)) := by
          rw [hshape2, hn]
          simp
        rw [charAt_of_drop this]
        rw [hn] at h3
        simpa using h3
    rw [hws]
    simp

theorem parseStep_serialized {raw : List Char} {offset : Nat} {st : MessageHeadersState}
    {h : Header} {R : List Char} (hg : goodHeader h = true)
    (hlim : st.lineLengthLimit = 0 ∨
      (2 ≤ st.lineLengthLimit ∧ (rawHeaderLine h).length ≤ st.lineLengthLimit))
    (hdrop : raw.drop offset = rawHeaderLine h ++ R)
    (hR : R = CRLFl ∨ ∃ h2 R2, R = rawHeaderLine h2 ++ R2 ∧ goodHeader h2 = true) :
    parseStep raw offset st =
      .next (offset + (rawHeaderLine h).length)
        {st with valid := st.valid && h.name.all goodNameChar,
                 headers := st.headers ++ [h]} := by
  obtain ⟨hc, hnamecrlf, hwsphd, hvalcrlf, hstrip⟩ := goodHeader_spec hg
  have hshape : raw.drop offset =
      (h.name ++ ':' :: ' ' :: h.value) ++ '\r' :: '\n' :: R := by
    rw [hdrop]
    simp [rawHeaderLine, CRLFl, List.append_assoc]
  have hP : (h.name ++ ':' :: ' ' :: h.value).length =
      h.name.length + h.value.length + 2 := by
    simp
    omega
  have hL : (rawHeaderLine h).length = h.name.length + h.value.length + 4 := by
    simp [rawHeaderLine, CRLFl]
    omega
  have hfind : findCRLF raw offset =
      some (offset + (h.name ++ ':' :: ' ' :: h.value).length) :=
    findCRLF_eq hshape (containsCRLF_headerLine hg)
  have hcolonshape : raw.drop offset =
      h.name ++ ':' :: (' ' :: h.value ++ '\r' :: '\n' :: R) := by
    rw [hshape]
    simp [List.append_assoc]
  have hd : findCharFrom raw ':' offset = some (offset + h.name.length) :=
    findCharFrom_eq hcolonshape hc
  have hc1 : (decide (st.lineLengthLimit > 0) &&
      decide ((offset + (h.name ++ ':' :: ' ' :: h.value).length) - offset + 2 >
        st.lineLengthLimit)) = false := by
    rcases hlim with h0 | ⟨h2, h3⟩
    · simp [h0]
    · simp only [Bool.and_eq_false_iff, decide_eq_false_iff_not]
      right
      omega
  have hne : ¬(offset + (h.name ++ ':' :: ' ' :: h.value).length = offset) := by
    omega
  have hsub1 : (offset + h.name.length) - offset = h.name.length := by omega
  have hname : substr raw offset h.name.length = h.name := by
    unfold substr
    rw [hcolonshape]
    exact List.take_left _ _
  have hifc : offset + h.name.length + 1 ≤
      offset + (h.name ++ ':' :: ' ' :: h.value).length := by omega
  have hsub2 : (offset + (h.name ++ ':' :: ' ' :: h.value).length) -
      (offset + h.name.length + 1) = h.value.length + 1 := by omega
  have hdropD : raw.drop (offset + h.name.length + 1) =
      ' ' :: (h.value ++ '\r' :: '\n' :: R) := by
    have e : offset + h.name.length + 1 = offset + (h.name.length + 1) := by omega
    rw [e, ← List.drop_drop, hcolonshape, drop_add_left]
    simp
  have hvalue0 : substr raw (offset + h.name.length + 1) (h.value.length + 1) =
      ' ' :: h.value := by
    unfold substr
    rw [hdropD]
    simp only [List.take_succ_cons]
    congr 1
    exact List.take_left _ _
  have hstrip0 : stripMarginWhitespace (' ' :: h.value) = h.value := by
    rw [strip_cons_wsp _ (by decide)]
    exact hstrip
  have hdropR : raw.drop (offset + (h.name ++ ':' :: ' ' :: h.value).length + 2) = R := by
    have e : offset + (h.name ++ ':' :: ' ' :: h.value).length + 2 =
        offset + ((h.name ++ ':' :: ' ' :: h.value).length + 2) := by omega
    rw [e, ← List.drop_drop, hshape, drop_add_left]
    simp
  have hunf := @unfoldLoop_serialized raw
    (offset + (h.name ++ ':' :: ' ' :: h.value).length) h.value _ raw.length hdropR hR
  unfold parseStep
  rw [hfind]
  simp only [hc1, Bool.false_eq_true, if_false, if_neg hne, hd, hsub1, hname, hsub2,
    if_pos hifc, hvalue0, hstrip0, hunf, finishHeader]
  have heta : (⟨h.name, stripMarginWhitespace h.value⟩ : Header) = h := by
    rw [hstrip]
  rw [heta]
  have hoff : offset + (h.name ++ ':' :: ' ' :: h.value).length + 2 =
      offset + (rawHeaderLine h).length := by omega
  rw [hoff]

theorem parseLoop_serialized (hs : List Header) : ∀ (raw : List Char) (offset : Nat)
    (st : MessageHeadersState) (fuel : Nat),
    (∀ h ∈ hs, goodHeader h = true) →
    (st.lineLengthLimit = 0 ∨ (2 ≤ st.lineLengthLimit ∧
      ∀ h ∈ hs, (rawHeaderLine h).length ≤ st.lineLengthLimit)) →
    raw.drop offset = serializeEntries hs ++ CRLFl →
    offset ≤ raw.length →
    raw.length < offset + fuel →
    parseLoop raw fuel offset st =
      (.Complete, raw.length,
       {st with valid := st.valid && hs.all (fun h => h.name.all goodNameChar),
                headers := st.headers ++ hs}) := by
  induction hs with
  | nil =>
    intro raw offset st fuel hgood hlim hdrop hoff hfuel
    have hlen : raw.length = offset + 2 := by
      have := congrArg List.length hdrop
      simp [serializeEntries, List.length_drop] at this
      simp [CRLFl] at this
      omega
    cases fuel with
    | zero => omega
    | succ f =>
      rw [parseLoop]
      rw [if_pos (by omega)]
      have hdrop2 : raw.drop offset = [] ++ '\r' :: '\n' :: [] := by
        rw [hdrop]
        simp [serializeEntries, CRLFl]
      have hfind : findCRLF raw offset = some (offset + 0) :=
        findCRLF_eq hdrop2 (by decide)
      have hstep : parseStep raw offset st = .exit .Complete (offset + 2) st := by
        unfold parseStep
        rw [hfind]
        have hc1 : (decide (st.lineLengthLimit > 0) &&
            decide ((offset + 0) - offset + 2 > st.lineLengthLimit)) = false := by
          rcases hlim with h0 | ⟨h2, -⟩
          · simp [h0]
          · simp only [Bool.and_eq_false_iff, decide_eq_false_iff_not]
            right
            omega
        simp only [hc1, Bool.false_eq_true, if_false]
        rw [if_pos (by omega : offset + 0 = offset)]
      simp only [hstep]
      simp [hlen, serializeEntries]
  | cons h hs' ih =>
    intro raw offset st fuel hgood hlim hdrop hoff hfuel
    have hgh : goodHeader h = true := hgood h (by simp)
    have hSlen : (raw.drop offset).length =
        (rawHeaderLine h).length + ((serializeEntries hs').length + 2) := by
      rw [hdrop, serializeEntries_cons]
      simp [CRLFl]
    have hlen : raw.length =
        offset + (rawHeaderLine h).length + (serializeEntries hs').length + 2 := by
      rw [List.length_drop] at hSlen
      have hLpos : 0 < (rawHeaderLine h).length := by
        simp [rawHeaderLine]
      omega
    cases fuel with
    | zero => omega
    | succ f =>
      rw [parseLoop]
      have hLpos : 4 ≤ (rawHeaderLine h).length := by
        simp [rawHeaderLine, CRLFl]
        omega
      rw [if_pos (by omega)]
      have hdropL : raw.drop offset = rawHeaderLine h ++ (serializeEntries hs' ++ CRLFl) := by
        rw [hdrop, serializeEntries_cons, List.append_assoc]
      have hR : serializeEntries hs' ++ CRLFl = CRLFl ∨
          ∃ h2 R2, serializeEntries hs' ++ CRLFl = rawHeaderLine h2 ++ R2 ∧
            goodHeader h2 = true := by
        cases hs' with
        | nil => left; simp [serializeEntries]
        | cons h2 t2 =>
          right
          exact ⟨h2, serializeEntries t2 ++ CRLFl, by
            rw [serializeEntries_cons, List.append_assoc], hgood h2 (by simp)⟩
      have hlim1 : st.lineLengthLimit = 0 ∨
          (2 ≤ st.lineLengthLimit ∧ (rawHeaderLine h).length ≤ st.lineLengthLimit) := by
        rcases hlim with h0 | ⟨h2, h3⟩
        · left; exact h0
        · right; exact ⟨h2, h3 h (by simp)⟩
      have hstep := parseStep_serialized hgh hlim1 hdropL hR
      simp only [hstep]
      have hdrop' : raw.drop (offset + (rawHeaderLine h).length) =
          serializeEntries hs' ++ CRLFl := by
        rw [← List.drop_drop, hdropL, List.drop_left]
      have ihres := ih raw (offset + (rawHeaderLine h).length)
        {st with valid := st.valid && h.name.all goodNameChar,
                 headers := st.headers ++ [h]} f
        (fun g hg => hgood g (by simp [hg]))
        (by
          rcases hlim with h0 | ⟨h2, h3⟩
          · left; exact h0
          · right; exact ⟨h2, fun g hg => h3 g (by simp [hg])⟩)
        hdrop' (by omega) (by omega)
      rw [ihres]
      simp [List.all_cons, List.append_assoc, Bool.and_assoc]

theorem foldl_append_eq_flatten (f : Header → List Char) (hs : List Header) :
    ∀ acc : List Char, hs.foldl (fun acc h => acc ++ f h) acc = acc ++ (hs.map f).flatten := by
  induction hs with
  | nil => intro acc; simp
  | cons h t ih =>
    intro acc
    simp only [List.foldl_cons, List.map_cons, List.flatten_cons, ih, List.append_assoc]

theorem generateRawHeaders_eq (st : MessageHeadersState) :
    generateRawHeaders st =
      (st.headers.map (fun h =>
        if st.lineLengthLimit > 0
        then (splitLine (rawHeaderLine h) CRLFl [' '] st.lineLengthLimit).flatten
        else rawHeaderLine h)).flatten ++ CRLFl := by
  unfold generateRawHeaders
  rw [foldl_append_eq_flatten]
  simp

theorem generateRawHeaders_nolimit (st : MessageHeadersState)
    (h : st.lineLengthLimit = 0) :
    generateRawHeaders st = serializeEntries st.headers ++ CRLFl := by
  rw [generateRawHeaders_eq, h]
  simp [serializeEntries]

/-- C1 (amended): round trip for headers whose names contain no ':' and
no CRLF pair and do not begin with SP/HT, and whose values contain no
CRLF pair and are WSP-normalized (`goodHeader`): with line-length limit
0, parsing the output of `GenerateRawHeaders` into a fresh store returns
Complete with the body offset at the end of the input, and the new
store's `GetAll` equals the original store's `GetAll`, entry for entry
and in order. -/
theorem claim_C1 (H : List Header) (hgood : ∀ h ∈ H, goodHeader h = true) :
    (parseRawMessage emptyState (generateRawHeaders ⟨H, 0, true⟩)).1 = .Complete ∧
    getAll (parseRawMessage emptyState (generateRawHeaders ⟨H, 0, true⟩)).2.2 =
      getAll ⟨H, 0, true⟩ ∧
    (parseRawMessage emptyState (generateRawHeaders ⟨H, 0, true⟩)).2.1 =
      (generateRawHeaders ⟨H, 0, true⟩).length := by
  have hgen : generateRawHeaders ⟨H, 0, true⟩ = serializeEntries H ++ CRLFl :=
    generateRawHeaders_nolimit _ rfl
  unfold parseRawMessage
  rw [parseLoop_serialized H _ 0 emptyState _ hgood (Or.inl rfl)
    (by rw [List.drop_zero, hgen]) (by omega) (by omega)]
  simp [getAll, emptyState]

/-- C1 counterexample: a header whose name contains ':' (name "a:b",
value "v", both otherwise unconstrained, value WSP-normalized, limit 0,
no obs-fold injection) does not round-trip: serialization gives
"a:b: v\r\n\r\n" and parsing splits at the FIRST colon, yielding the
single entry ("a", "b: v") instead of ("a:b", "v"). -/
theorem claim_C1_counterexample :
    stripMarginWhitespace ['v'] = ['v'] ∧
    generateRawHeaders ⟨[⟨['a', ':', 'b'], ['v']⟩], 0, true⟩ =
      ['a', ':', 'b', ':', ' ', 'v', '\r', '\n', '\r', '\n'] ∧
    getAll (parseRawMessage emptyState
        (generateRawHeaders ⟨[⟨['a', ':', 'b'], ['v']⟩], 0, true⟩)).2.2 =
      [⟨['a'], ['b', ':', ' ', 'v']⟩] ∧
    getAll (parseRawMessage emptyState
        (generateRawHeaders ⟨[⟨['a', ':', 'b'], ['v']⟩], 0, true⟩)).2.2 ≠
      getAll ⟨[⟨['a', ':', 'b'], ['v']⟩], 0, true⟩ := by
  decide

/-- C1 witness: a two-header store round-trips. -/
theorem claim_C1_witness :
    (parseRawMessage emptyState
        (generateRawHeaders ⟨[⟨['H', 'o', 's', 't'], ['a']⟩,
          ⟨['V', 'i', 'a'], ['x', ' ', 'y']⟩], 0, true⟩)).1 = .Complete ∧
    getAll (parseRawMessage emptyState
        (generateRawHeaders ⟨[⟨['H', 'o', 's', 't'], ['a']⟩,
          ⟨['V', 'i', 'a'], ['x', ' ', 'y']⟩], 0, true⟩)).2.2 =
      getAll ⟨[⟨['H', 'o', 's', 't'], ['a']⟩, ⟨['V', 'i', 'a'], ['x', ' ', 'y']⟩], 0, true⟩ :=
  ⟨(claim_C1 _ (by decide)).1, (claim_C1 _ (by decide)).2.1⟩

theorem containsCRLF_replicate {c : Char} (hc : c ≠ '\r') :
    ∀ n, containsCRLF (List.replicate n c) = false := by
  intro n
  induction n with
  | zero => rfl
  | succ m ih =>
    rw [List.replicate_succ]
    cases m with
    | zero => rfl
    | succ k =>
      rw [List.replicate_succ, containsCRLF_cons_cons, ← List.replicate_succ]
      rw [ih]
      simp [hc]

theorem strip_replicate {c : Char} (hc : isWSP c = false) (n : Nat) :
    stripMarginWhitespace (List.replicate n c) = List.replicate n c := by
  apply strip_eq_self_of
  · cases n with
    | zero => rfl
    | succ m =>
      rw [List.replicate_succ, List.dropWhile_cons]
      simp [hc]
  · rw [List.reverse_replicate]
    cases n with
    | zero => rfl
    | succ m =>
      rw [List.replicate_succ, List.dropWhile_cons]
      simp [hc]

/-- C9 (amended): line-length policing on parse.  With limit L > 0, a
first line whose length including CRLF exceeds L gives Error.  When no
CRLF exists in a NON-EMPTY input, the parse returns Incomplete if L = 0
or the byte count + 2 ≤ L, and Error otherwise; an EMPTY input returns
Incomplete without consulting the limit (see the counterexample).  With
limit 1000, the message "X: " ++ 995 * 'a' ++ CRLF (a line of exactly
1000 bytes including CRLF) followed by the blank line parses Complete,
while a first line of 1001 bytes gives Error. -/
theorem claim_C9 :
    (∀ (st : MessageHeadersState) (raw : List Char) (t : Nat),
        findCRLF raw 0 = some t → 0 < st.lineLengthLimit →
        st.lineLengthLimit < t + 2 →
        parseRawMessage st raw = (.Error, 0, {st with valid := false})) ∧
    (∀ (st : MessageHeadersState) (raw : List Char),
        findCRLF raw 0 = none → 0 < raw.length →
        ((st.lineLengthLimit = 0 ∨ raw.length + 2 ≤ st.lineLengthLimit) →
            parseRawMessage st raw = (.Incomplete, 0, st)) ∧
        (0 < st.lineLengthLimit → st.lineLengthLimit < raw.length + 2 →
            parseRawMessage st raw = (.Error, 0, {st with valid := false}))) ∧
    (parseRawMessage ⟨[], 1000, true⟩
        ('X' :: ':' :: ' ' :: List.replicate 995 'a' ++ ['\r', '\n', '\r', '\n'])).1 =
      .Complete ∧
    (parseRawMessage ⟨[], 1000, true⟩
        ('X' :: ':' :: ' ' :: List.replicate 996 'a' ++ ['\r', '\n', '\r', '\n'])).1 =
      .Error := by
  refine ⟨?_, ?_, ?_, ?_⟩
  · intro st raw t hfind hpos hgt
    have hlen : 0 < raw.length := by
      have := (findCRLF_some hfind).2.2.2.1
      omega
    exact parseRawMessage_of_step_exit hlen (parseStep_too_long hfind hpos hgt)
  · intro st raw hfind hlen
    constructor
    · intro hfit
      exact parseRawMessage_of_step_exit hlen (parseStep_no_crlf_incomplete hfind hfit)
    · intro hpos hgt
      exact parseRawMessage_of_step_exit hlen (parseStep_no_crlf_error hfind hpos hgt)
  · have hgood : goodHeader ⟨['X'], List.replicate 995 'a'⟩ = true := by
      unfold goodHeader
      rw [containsCRLF_replicate (by decide) 995, strip_replicate (by decide) 995]
      simp only [beq_self_eq_true, Bool.not_false, Bool.and_true]
      decide
    have hline : (rawHeaderLine ⟨['X'], List.replicate 995 'a'⟩).length = 1000 := by
      simp only [rawHeaderLine, CRLFl, List.length_append, List.length_cons,
        List.length_replicate, List.length_nil]
    have hraw : ('X' :: ':' :: ' ' :: List.replicate 995 'a' ++ ['\r', '\n', '\r', '\n'] :
        List Char) = serializeEntries [⟨['X'], List.replicate 995 'a'⟩] ++ CRLFl := by
      simp only [serializeEntries, rawHeaderLine, CRLFl, List.map_cons, List.map_nil,
        List.flatten_cons, List.flatten_nil, List.append_nil, List.cons_append,
        List.nil_append, List.append_assoc]
    rw [hraw]
    unfold parseRawMessage
    rw [parseLoop_serialized [⟨['X'], List.replicate 995 'a'⟩] _ 0 ⟨[], 1000, true⟩ _
      (by intro g hg; simp only [List.mem_singleton] at hg; rw [hg]; exact hgood)
      (Or.inr ⟨by decide, by
        intro g hg; simp only [List.mem_singleton] at hg; rw [hg, hline]⟩)
      (by rw [List.drop_zero]) (by omega) (by omega)]
  · have hrep : List.replicate 996 'a' = 'a' :: List.replicate 995 'a' := rfl
    have hp : containsCRLF ('X' :: ':' :: ' ' :: List.replicate 996 'a') = false := by
      rw [hrep, containsCRLF_cons_cons, containsCRLF_cons_cons, containsCRLF_cons_cons,
        ← List.replicate_succ, containsCRLF_replicate (by decide) 996]
      decide
    have hshape : ('X' :: ':' :: ' ' :: List.replicate 996 'a' ++ ['\r', '\n', '\r', '\n'] :
        List Char).drop 0 = ('X' :: ':' :: ' ' :: List.replicate 996 'a') ++
          '\r' :: '\n' :: ['\r', '\n'] := by
      rw [List.drop_zero]
    have hfind := findCRLF_eq hshape hp
    have hplen : ('X' :: ':' :: ' ' :: List.replicate 996 'a').length = 999 := by
      simp only [List.length_cons, List.length_replicate]
    rw [hplen] at hfind
    have hlen : 0 < ('X' :: ':' :: ' ' :: List.replicate 996 'a' ++
        ['\r', '\n', '\r', '\n'] : List Char).length := by
      simp only [List.length_append, List.length_cons]
      omega
    rw [parseRawMessage_of_step_exit hlen
      (parseStep_too_long hfind (by decide) (by decide))]

/-- C9 counterexample: with limit 1 and EMPTY remaining input there is no
CRLF and the remaining byte count + 2 = 2 exceeds the limit, so the claim
demands Error; the code never enters the loop and returns Incomplete. -/
theorem claim_C9_counterexample :
    findCRLF [] 0 = none ∧ (0 : Nat) + 2 > 1 ∧
      parseRawMessage ⟨[], 1, true⟩ [] = (.Incomplete, 0, ⟨[], 1, true⟩) ∧
      ParseState.Incomplete ≠ ParseState.Error := by
  decide

/-- C9 witness: a 6-byte first line against limit 5 errors, and a
colon-free unterminated 3-byte input against limit 5 is Incomplete. -/
theorem claim_C9_witness :
    parseRawMessage ⟨[], 5, true⟩ ['X', ':', ' ', 'a', '\r', '\n'] =
        (.Error, 0, ⟨[], 5, false⟩) ∧
      parseRawMessage ⟨[], 5, true⟩ ['a', 'b', 'c'] = (.Incomplete, 0, ⟨[], 5, true⟩) :=
  ⟨claim_C9.1 ⟨[], 5, true⟩ ['X', ':', ' ', 'a', '\r', '\n'] 4 (by decide) (by decide)
      (by decide),
    (claim_C9.2.1 ⟨[], 5, true⟩ ['a', 'b', 'c'] (by decide) (by decide)).1
      (Or.inr (by decide))⟩

theorem setHeaderAux_no_match {n v : List Char} {hs : List Header}
    (h : ∀ g ∈ hs, nameEqual g.name n = false) (b : Bool) :
    setHeaderAux n v hs b = (hs, b) := by
  induction hs with
  | nil => rfl
  | cons g t ih =>
    have hg : nameEqual g.name n = false := h g (by simp)
    unfold setHeaderAux
    rw [hg]
    simp only [Bool.false_eq_true, if_false]
    rw [ih (fun x hx => h x (by simp [hx]))]

theorem setHeaderAux_erase (n v : List Char) (hs : List Header) :
    setHeaderAux n v hs true = (hs.filter (fun g => !nameEqual g.name n), true) := by
  induction hs with
  | nil => rfl
  | cons g t ih =>
    unfold setHeaderAux
    by_cases hg : nameEqual g.name n = true
    · rw [if_pos hg, if_pos rfl, ih]
      rw [List.filter_cons]
      simp [hg]
    · have hg' : nameEqual g.name n = false := by simpa using hg
      rw [hg']
      simp only [Bool.false_eq_true, if_false]
      rw [ih]
      rw [List.filter_cons]
      simp [hg']

theorem setHeaderAux_found {n v : List Char} {pre : List Header} {h : Header}
    {post : List Header} (hpre : ∀ g ∈ pre, nameEqual g.name n = false)
    (hh : nameEqual h.name n = true) :
    setHeaderAux n v (pre ++ h :: post) false =
      (pre ++ ⟨h.name, v⟩ :: post.filter (fun g => !nameEqual g.name n), true) := by
  induction pre with
  | nil =>
    simp only [List.nil_append]
    unfold setHeaderAux
    rw [if_pos hh]
    simp only [Bool.false_eq_true, if_false]
    rw [setHeaderAux_erase]
  | cons g t ih =>
    have hg : nameEqual g.name n = false := hpre g (by simp)
    simp only [List.cons_append]
    unfold setHeaderAux
    rw [hg]
    simp only [Bool.false_eq_true, if_false]
    rw [ih (fun x hx => hpre x (by simp [hx]))]

theorem setHeader_no_match {n v : List Char} {hs : List Header}
    (h : ∀ g ∈ hs, nameEqual g.name n = false) :
    setHeader hs n v = hs ++ [⟨n, v⟩] := by
  unfold setHeader
  rw [setHeaderAux_no_match h false]
  simp

theorem setHeader_found {n v : List Char} {pre : List Header} {h : Header}
    {post : List Header} (hpre : ∀ g ∈ pre, nameEqual g.name n = false)
    (hh : nameEqual h.name n = true) :
    setHeader (pre ++ h :: post) n v =
      pre ++ ⟨h.name, v⟩ :: post.filter (fun g => !nameEqual g.name n) := by
  unfold setHeader
  rw [setHeaderAux_found hpre hh]
  simp

theorem exists_first_match {p : Header → Bool} {hs : List Header}
    (h : hs.any p = true) :
    ∃ pre g post, hs = pre ++ g :: post ∧ (∀ x ∈ pre, p x = false) ∧ p g = true := by
  induction hs with
  | nil => simp at h
  | cons g t ih =>
    by_cases hg : p g = true
    · exact ⟨[], g, t, by simp, by simp, hg⟩
    · have ht : t.any p = true := by
        simp only [List.any_cons, Bool.or_eq_true] at h
        rcases h with h | h
        · exact absurd h hg
        · exact h
      obtain ⟨pre, g', post, h1, h2, h3⟩ := ih ht
      refine ⟨g :: pre, g', post, by simp [h1], ?_, h3⟩
      intro x hx
      rcases List.mem_cons.mp hx with hx | hx
      · rw [hx]; simpa using hg
      · exact h2 x hx

theorem getHeaderValue_append_no_match {n : List Char} {hs l : List Header}
    (h : ∀ g ∈ hs, nameEqual g.name n = false) :
    getHeaderValue (hs ++ l) n = getHeaderValue l n := by
  induction hs with
  | nil => rfl
  | cons g t ih =>
    have hg : nameEqual g.name n = false := h g (by simp)
    simp only [List.cons_append, getHeaderValue, hg]
    simp only [Bool.false_eq_true, if_false]
    exact ih (fun x hx => h x (by simp [hx]))

theorem countP_filter_not (p : Header → Bool) (l : List Header) :
    (l.filter (fun g => !p g)).countP p = 0 := by
  rw [List.countP_eq_zero]
  intro a ha
  have := List.of_mem_filter ha
  simp only [Bool.not_eq_true'] at this
  simp [this]

/-- C2: SetHeader(name, value) replaces the value of the first
case-insensitive match in place (keeping its position and stored name
casing), erases every subsequent match, and appends a new entry at the
tail when nothing matched; afterwards GetHeaderValue(name) = value,
exactly one entry matches the name, and the non-matching entries are
unchanged in relative order. -/
theorem claim_C2 (hs : List Header) (n v : List Char) :
    getHeaderValue (setHeader hs n v) n = v ∧
    (setHeader hs n v).countP (fun g => nameEqual g.name n) = 1 ∧
    (setHeader hs n v).filter (fun g => !nameEqual g.name n) =
      hs.filter (fun g => !nameEqual g.name n) ∧
    ((∀ g ∈ hs, nameEqual g.name n = false) → setHeader hs n v = hs ++ [⟨n, v⟩]) ∧
    (∀ pre h post, hs = pre ++ h :: post → (∀ g ∈ pre, nameEqual g.name n = false) →
      nameEqual h.name n = true →
      setHeader hs n v = pre ++ ⟨h.name, v⟩ :: post.filter (fun g => !nameEqual g.name n)) := by
  have main : getHeaderValue (setHeader hs n v) n = v ∧
      (setHeader hs n v).countP (fun g => nameEqual g.name n) = 1 ∧
      (setHeader hs n v).filter (fun g => !nameEqual g.name n) =
        hs.filter (fun g => !nameEqual g.name n) := by
    by_cases hany : hs.any (fun g => nameEqual g.name n) = true
    · obtain ⟨pre, g, post, hdec, hpre, hg⟩ := exists_first_match hany
      subst hdec
      rw [setHeader_found hpre hg]
      refine ⟨?_, ?_, ?_⟩
      · rw [getHeaderValue_append_no_match hpre]
        simp [getHeaderValue, hg]
      · rw [List.countP_append, List.countP_cons]
        have h1 : pre.countP (fun g => nameEqual g.name n) = 0 := by
          rw [List.countP_eq_zero]
          intro a ha
          simp [hpre a ha]
        have h2 := countP_filter_not (fun g => nameEqual g.name n) post
        simp only [h1, h2, hg]
        simp
      · rw [List.filter_append, List.filter_append, List.filter_cons, List.filter_cons]
        have hpre' : pre.filter (fun g => !nameEqual g.name n) = pre :=
          List.filter_eq_self.mpr (fun a ha => by simp [hpre a ha])
        simp only [hg, Bool.not_true, Bool.false_eq_true, if_false]
        rw [List.filter_filter]
        simp [Bool.and_self]
    · have hnone : ∀ g ∈ hs, nameEqual g.name n = false := by
        intro g hg
        by_contra hc
        exact hany (List.any_eq_true.mpr ⟨g, hg, by simpa using hc⟩)
      rw [setHeader_no_match hnone]
      refine ⟨?_, ?_, ?_⟩
      · rw [getHeaderValue_append_no_match hnone]
        simp [getHeaderValue, nameEqual_refl]
      · rw [List.countP_append, List.countP_cons]
        have h1 : hs.countP (fun g => nameEqual g.name n) = 0 := by
          rw [List.countP_eq_zero]
          intro a ha
          simp [hnone a ha]
        simp [h1, nameEqual_refl]
      · rw [List.filter_append, List.filter_cons]
        simp [nameEqual_refl]
  refine ⟨main.1, main.2.1, main.2.2, fun h => setHeader_no_match h, ?_⟩
  intro pre h post hdec hpre hh
  rw [hdec]
  exact setHeader_found hpre hh

/-- C2 witness: the spec's Via scenario — three Via entries collapse to a
single one carrying the new value at the position of the first, other
headers keeping their relative order. -/
theorem claim_C2_witness :
    setHeader [⟨['V', 'i', 'a'], ['a']⟩, ⟨['H', 'o', 's', 't'], ['h']⟩,
        ⟨['v', 'i', 'a'], ['b']⟩] ['V', 'I', 'A'] ['K', 'a', 'p', 'p', 'a'] =
      [⟨['V', 'i', 'a'], ['K', 'a', 'p', 'p', 'a']⟩, ⟨['H', 'o', 's', 't'], ['h']⟩] :=
  (claim_C2 [⟨['V', 'i', 'a'], ['a']⟩, ⟨['H', 'o', 's', 't'], ['h']⟩,
      ⟨['v', 'i', 'a'], ['b']⟩] ['V', 'I', 'A'] ['K', 'a', 'p', 'p', 'a']).2.2.2.2
    [] ⟨['V', 'i', 'a'], ['a']⟩ [⟨['H', 'o', 's', 't'], ['h']⟩, ⟨['v', 'i', 'a'], ['b']⟩]
    rfl (by decide) (by decide)

/-- C6 (amended): when a header line cannot be folded to fit the positive
limit L (`SplitLine` returns the empty vector — for the first part this
happens unless at least two SP/HT occur in the window, since the first
SP/HT seen only arms the breaker), GenerateRawHeaders emits zero bytes
for THAT header only: the block equals the serialization of the store
without that header, and it still ends with the final CRLF, so the
result is never the empty byte sequence. -/
theorem claim_C6 (v : Bool) (L : Nat) (h : Header) (pre post : List Header)
    (hL : 0 < L) (hsplit : splitLine (rawHeaderLine h) CRLFl [' '] L = []) :
    generateRawHeaders ⟨pre ++ h :: post, L, v⟩ =
      generateRawHeaders ⟨pre ++ post, L, v⟩ ∧
    generateRawHeaders ⟨pre ++ h :: post, L, v⟩ ≠ [] := by
  rw [generateRawHeaders_eq, generateRawHeaders_eq]
  constructor
  · simp only [List.map_append, List.map_cons, List.flatten_append, List.flatten_cons]
    rw [if_pos hL, hsplit]
    simp
  · simp [CRLFl]

/-- C6 counterexample: with limit 12 the single header
("X", "aaadadazdadcvbfdfvdf") has no second SP/HT in the fold window, so
the header emits nothing, but GenerateRawHeaders still returns the final
CRLF — a non-empty byte sequence, contradicting "empty byte sequence for
the whole block". -/
theorem claim_C6_counterexample :
    generateRawHeaders ⟨[⟨['X'], ['a', 'a', 'a', 'd', 'a', 'd', 'a', 'z', 'd', 'a', 'd',
        'c', 'v', 'b', 'f', 'd', 'f', 'v', 'd', 'f']⟩], 12, true⟩ = ['\r', '\n'] ∧
      (['\r', '\n'] : List Char) ≠ [] := by
  decide

/-- C6 witness: the unfoldable header contributes nothing and the block
is the same as without it. -/
theorem claim_C6_witness :
    generateRawHeaders ⟨[⟨['X'], ['a', 'a', 'a', 'd', 'a', 'd', 'a', 'z', 'd', 'a', 'd',
        'c', 'v', 'b', 'f', 'd', 'f', 'v', 'd', 'f']⟩], 12, true⟩ =
      generateRawHeaders ⟨[], 12, true⟩ ∧
    generateRawHeaders ⟨[⟨['X'], ['a', 'a', 'a', 'd', 'a', 'd', 'a', 'z', 'd', 'a', 'd',
        'c', 'v', 'b', 'f', 'd', 'f', 'v', 'd', 'f']⟩], 12, true⟩ ≠ [] :=
  claim_C6 true 12 _ [] [] (by decide) (by decide)

theorem findNotWSPAux_replicate_space {c : Char} (hc : isWSP c = false) :
    ∀ k (r : List Char), findNotWSPAux (List.replicate k ' ' ++ c :: r) = some k := by
  intro k
  induction k with
  | zero =>
    intro r
    simpa using findNotWSPAux_cons_not r hc
  | succ n ih =>
    intro r
    rw [List.replicate_succ, List.cons_append, findNotWSPAux_cons_wsp _ (by decide), ih]
    rfl

theorem parseStep_unfold_once {raw : List Char} {st : MessageHeadersState}
    {name v1 v2 : List Char} {k : Nat} (hlim : st.lineLengthLimit = 0)
    (hk : 1 ≤ k)
    (hn1 : ∀ x ∈ name, x ≠ ':') (hn2 : containsCRLF name = false)
    (hv1a : containsCRLF v1 = false) (hv1b : stripMarginWhitespace v1 = v1)
    (hv1c : v1 ≠ []) (hv2a : containsCRLF v2 = false)
    (hv2b : stripMarginWhitespace v2 = v2) (hv2c : 2 ≤ v2.length)
    (hraw : raw = name ++ ':' :: ' ' :: v1 ++
      '\r' :: '\n' :: (List.replicate k ' ' ++ v2) ++ ['\r', '\n', '\r', '\n']) :
    parseStep raw 0 st =
      .next ((name ++ ':' :: ' ' :: v1).length + k + v2.length + 4)
        {st with valid := st.valid && name.all goodNameChar,
                 headers := st.headers ++ [⟨name, v1 ++ ' ' :: v2⟩]} := by
  obtain ⟨c2, v2', hv2⟩ : ∃ c r, v2 = c :: r := by
    cases v2 with
    | nil => simp at hv2c
    | cons c r => exact ⟨c, r, rfl⟩
  have hc2 : isWSP c2 = false := by
    apply @head_not_wsp_of_dropWhile_eq_self _ v2'
    rw [← hv2]
    exact dropWhile_eq_self_of_strip hv2b
  have hT : (name ++ ':' :: ' ' :: v1).length = name.length + v1.length + 2 := by
    simp
    omega
  have hpre0 : containsCRLF (name ++ ':' :: ' ' :: v1) = false :=
    containsCRLF_name_colon_value hn2 hv1a
  have hshape : raw.drop 0 = (name ++ ':' :: ' ' :: v1) ++
      '\r' :: '\n' :: (List.replicate k ' ' ++ v2 ++ ['\r', '\n', '\r', '\n']) := by
    rw [List.drop_zero, hraw]
    simp [List.append_assoc]
  have hfind := findCRLF_eq hshape hpre0
  rw [Nat.zero_add] at hfind
  have e0 : raw = name ++ (':' :: (' ' :: (v1 ++ ('\r' :: '\n' ::
      (List.replicate k ' ' ++ (v2 ++ ['\r', '\n', '\r', '\n'])))))) := by
    rw [hraw]
    simp
  have hcolonshape : raw.drop 0 = name ++ ':' ::
      (' ' :: (v1 ++ ('\r' :: '\n' ::
        (List.replicate k ' ' ++ (v2 ++ ['\r', '\n', '\r', '\n']))))) := by
    rw [List.drop_zero, hraw]
    simp
  have hd := findCharFrom_eq hcolonshape hn1
  rw [Nat.zero_add] at hd
  have hlenraw : raw.length =
      (name ++ ':' :: ' ' :: v1).length + k + v2.length + 6 := by
    rw [hraw]
    simp
    omega
  have hc1 : (decide (st.lineLengthLimit > 0) &&
      decide ((name ++ ':' :: ' ' :: v1).length - 0 + 2 > st.lineLengthLimit)) = false := by
    simp [hlim]
  have hne : ¬((name ++ ':' :: ' ' :: v1).length = 0) := by omega
  have hsub1 : name.length - 0 = name.length := by omega
  have hname : substr raw 0 name.length = name := by
    unfold substr
    rw [List.drop_zero, e0]
    exact List.take_left _ _
  have hifc : name.length + 1 ≤ (name ++ ':' :: ' ' :: v1).length := by omega
  have hsub2 : (name ++ ':' :: ' ' :: v1).length - (name.length + 1) = v1.length + 1 := by
    omega
  have hdropN : raw.drop (name.length + 1) =
      ' ' :: (v1 ++ ('\r' :: '\n' ::
        (List.replicate k ' ' ++ (v2 ++ ['\r', '\n', '\r', '\n'])))) := by
    rw [e0, drop_add_left]
    simp
  have hvalue0 : substr raw (name.length + 1) (v1.length + 1) = ' ' :: v1 := by
    unfold substr
    rw [hdropN, List.take_succ_cons, List.take_left]
  have hstrip0 : stripMarginWhitespace (' ' :: v1) = v1 := by
    rw [strip_cons_wsp _ (by decide)]
    exact hv1b
  have hdrop2 : raw.drop ((name ++ ':' :: ' ' :: v1).length + 2) =
      (List.replicate k ' ' ++ v2) ++ '\r' :: '\n' :: ['\r', '\n'] := by
    have e : raw = (name ++ ':' :: ' ' :: v1) ++
        ('\r' :: '\n' :: ((List.replicate k ' ' ++ v2) ++ ['\r', '\n', '\r', '\n'])) := by
      rw [hraw]
      simp [List.append_assoc]
    rw [e, drop_add_left]
    simp
  have hsp : containsCRLF (' ' :: v2) = false := by
    rw [hv2, containsCRLF_cons_cons, ← hv2]
    simp [hv2a]
  have hpcons : containsCRLF (List.replicate k ' ' ++ v2) = false := by
    obtain ⟨kp, hkp⟩ : ∃ kp, k = kp + 1 := ⟨k - 1, by omega⟩
    rw [hkp, List.replicate_succ', List.append_assoc, List.singleton_append]
    exact containsCRLF_append_cons (by decide) (containsCRLF_replicate (by decide) kp) hsp
  have hch : charAt raw ((name ++ ':' :: ' ' :: v1).length + 2) = ' ' := by
    obtain ⟨kp, hkp⟩ : ∃ kp, k = kp + 1 := ⟨k - 1, by omega⟩
    apply @charAt_of_drop _ _ _
      (List.replicate kp ' ' ++ v2 ++ '\r' :: '\n' :: ['\r', '\n'])
    rw [hdrop2, hkp, List.replicate_succ]
    simp
  have hdrop4 : raw.drop ((name ++ ':' :: ' ' :: v1).length + 2 + k) =
      v2 ++ ('\r' :: '\n' :: ['\r', '\n']) := by
    have e : raw = (name ++ ':' :: ' ' :: v1 ++ '\r' :: '\n' :: List.replicate k ' ') ++
        (v2 ++ ('\r' :: '\n' :: ['\r', '\n'])) := by
      rw [hraw]
      simp
    have elen : (name ++ ':' :: ' ' :: v1 ++ '\r' :: '\n' :: List.replicate k ' ').length =
        (name ++ ':' :: ' ' :: v1).length + 2 + k := by
      simp
      omega
    rw [e, ← elen, List.drop_left]
  have hfnw : findNotWSPFrom raw ((name ++ ':' :: ' ' :: v1).length + 2) =
      some ((name ++ ':' :: ' ' :: v1).length + 2 + k) := by
    unfold findNotWSPFrom
    have e : raw.drop ((name ++ ':' :: ' ' :: v1).length + 2) =
        List.replicate k ' ' ++ c2 :: (v2' ++ '\r' :: '\n' :: ['\r', '\n']) := by
      rw [hdrop2, hv2]
      simp
    rw [e, findNotWSPAux_replicate_space hc2 k _]
    simp only [Option.map_some']
    congr 1
    omega
  have hchunk : substr raw ((name ++ ':' :: ' ' :: v1).length + 2 + k) v2.length = v2 := by
    unfold substr
    rw [hdrop4]
    exact List.take_left _ _
  have hunf : unfoldLoop raw (raw.length + 1) v1
      ((name ++ ':' :: ' ' :: v1).length + 2) (name ++ ':' :: ' ' :: v1).length =
      .ok (v1 ++ ' ' :: v2, (name ++ ':' :: ' ' :: v1).length + k + v2.length + 4) := by
    rw [unfoldLoop]
    have hfind2 := findCRLF_eq hdrop2 hpcons
    rw [hfind2]
    have hcond : (decide ((name ++ ':' :: ' ' :: v1).length + 2 +
        (List.replicate k ' ' ++ v2).length -
        ((name ++ ':' :: ' ' :: v1).length + 2) > 2) &&
        isWSP (charAt raw ((name ++ ':' :: ' ' :: v1).length + 2))) = true := by
      rw [hch]
      simp only [List.length_append, List.length_replicate, isWSP]
      simp only [Bool.and_eq_true, decide_eq_true_eq]
      constructor
      · omega
      · decide
    simp only [hcond, if_true, hfnw, Option.getD_some]
    have harg1 : (name ++ ':' :: ' ' :: v1).length + 2 +
        (List.replicate k ' ' ++ v2).length -
        ((name ++ ':' :: ' ' :: v1).length + 2) -
        ((name ++ ':' :: ' ' :: v1).length + 2 + k -
          ((name ++ ':' :: ' ' :: v1).length + 2)) = v2.length := by
      simp only [List.length_append, List.length_replicate]
      omega
    rw [harg1, hchunk]
    have hfuel : raw.length =
        ((name ++ ':' :: ' ' :: v1).length + k + v2.length + 5) + 1 := by
      omega
    rw [hfuel]
    have ht2 : (name ++ ':' :: ' ' :: v1).length + 2 +
        (List.replicate k ' ' ++ v2).length =
        ((name ++ ':' :: ' ' :: v1).length + k + v2.length + 2) := by
      simp only [List.length_append, List.length_replicate]
      omega
    rw [ht2]
    have hdropblank : raw.drop
        ((name ++ ':' :: ' ' :: v1).length + k + v2.length + 2 + 2) = CRLFl := by
      have e : raw = (name ++ ':' :: ' ' :: v1 ++ '\r' :: '\n' ::
          (List.replicate k ' ' ++ v2) ++ ['\r', '\n']) ++ ['\r', '\n'] := by
        rw [hraw]
        simp [List.append_assoc]
      have elen : (name ++ ':' :: ' ' :: v1 ++ '\r' :: '\n' ::
          (List.replicate k ' ' ++ v2) ++ ['\r', '\n']).length =
          (name ++ ':' :: ' ' :: v1).length + k + v2.length + 4 := by
        simp
        omega
      have e2 : (name ++ ':' :: ' ' :: v1).length + k + v2.length + 2 + 2 =
          (name ++ ':' :: ' ' :: v1 ++ '\r' :: '\n' ::
            (List.replicate k ' ' ++ v2) ++ ['\r', '\n']).length := by omega
      rw [e2, e]
      rw [List.drop_left]
      rfl
    have := @unfoldLoop_serialized raw
      ((name ++ ':' :: ' ' :: v1).length + k + v2.length + 2) (v1 ++ ' ' :: v2) _
      ((name ++ ':' :: ' ' :: v1).length + k + v2.length + 5) hdropblank (Or.inl rfl)
    rw [this]
  have hstripfin : stripMarginWhitespace (v1 ++ ' ' :: v2) = v1 ++ ' ' :: v2 :=
    strip_append_sep hv1b hv1c hv2b (by rw [hv2]; simp)
  unfold parseStep
  rw [hfind]
  simp only [hc1, Bool.false_eq_true, if_false, if_neg hne, hd, hsub1, hname, hsub2,
    if_pos hifc, hvalue0, hstrip0, hunf, finishHeader, hstripfin]

/-- C8 (obs-fold unfolding, MessageHeaders.cpp lines 303-342): while the
line after a header line begins with SP/HT and its length (without the
CRLF) exceeds 2, `ParseRawMessage` appends a single SP to the value,
discards the continuation line's leading whitespace run, and appends the
remaining bytes: a message `name ++ ": " ++ v1 ++ CRLF ++ (k spaces) ++
v2 ++ CRLF ++ CRLF` parses Complete with the single header
`(name, v1 ++ " " ++ v2)`, so `GetHeaderValue name` returns
`v1 ++ " " ++ v2` (the "Subject: This\r\n is a test\r\n" example gives
"This is a test"). -/
theorem claim_C8 {raw : List Char} {name v1 v2 : List Char} {k : Nat}
    (hk : 1 ≤ k)
    (hn1 : ∀ x ∈ name, x ≠ ':') (hn2 : containsCRLF name = false)
    (hv1a : containsCRLF v1 = false) (hv1b : stripMarginWhitespace v1 = v1)
    (hv1c : v1 ≠ []) (hv2a : containsCRLF v2 = false)
    (hv2b : stripMarginWhitespace v2 = v2) (hv2c : 2 ≤ v2.length)
    (hraw : raw = name ++ ':' :: ' ' :: v1 ++
      '\r' :: '\n' :: (List.replicate k ' ' ++ v2) ++ ['\r', '\n', '\r', '\n']) :
    parseRawMessage emptyState raw =
      (.Complete, raw.length,
        ⟨[⟨name, v1 ++ ' ' :: v2⟩], 0, name.all goodNameChar⟩) ∧
    getHeaderValue (parseRawMessage emptyState raw).2.2.headers name =
      v1 ++ ' ' :: v2 := by
  have hstep := @parseStep_unfold_once raw emptyState name v1 v2 k rfl hk hn1 hn2
    hv1a hv1b hv1c hv2a hv2b hv2c hraw
  have hlenraw : raw.length =
      (name ++ ':' :: ' ' :: v1).length + k + v2.length + 6 := by
    rw [hraw]
    simp
    omega
  have h0 : 0 < raw.length := by omega
  have hdropb : raw.drop ((name ++ ':' :: ' ' :: v1).length + k + v2.length + 4) =
      serializeEntries [] ++ CRLFl := by
    have e : raw = (name ++ ':' :: ' ' :: v1 ++ '\r' :: '\n' ::
        (List.replicate k ' ' ++ v2) ++ ['\r', '\n']) ++ ['\r', '\n'] := by
      rw [hraw]
      simp [List.append_assoc]
    have elen : (name ++ ':' :: ' ' :: v1 ++ '\r' :: '\n' ::
        (List.replicate k ' ' ++ v2) ++ ['\r', '\n']).length =
        (name ++ ':' :: ' ' :: v1).length + k + v2.length + 4 := by
      simp
      omega
    rw [e, ← elen, List.drop_left]
    rfl
  have hoff : (name ++ ':' :: ' ' :: v1).length + k + v2.length + 4 ≤ raw.length := by
    omega
  have hfuel2 : raw.length <
      (name ++ ':' :: ' ' :: v1).length + k + v2.length + 4 + raw.length := by
    omega
  have hfinal := parseLoop_serialized [] raw
      ((name ++ ':' :: ' ' :: v1).length + k + v2.length + 4)
      {emptyState with valid := emptyState.valid && name.all goodNameChar,
                       headers := emptyState.headers ++ [⟨name, v1 ++ ' ' :: v2⟩]}
      raw.length (by simp) (Or.inl rfl) hdropb hoff hfuel2
  have hmain : parseRawMessage emptyState raw =
      (.Complete, raw.length,
        ⟨[⟨name, v1 ++ ' ' :: v2⟩], 0, name.all goodNameChar⟩) := by
    unfold parseRawMessage
    rw [parseLoop, if_pos h0]
    simp only [hstep]
    rw [hfinal]
    simp [emptyState]
  refine ⟨hmain, ?_⟩
  rw [hmain]
  simp [getHeaderValue, nameEqual_refl]

/-- Witness for C8 at the spec's example: parsing
"Subject: This\r\n is a test\r\n\r\n" yields the single valid header
Subject with value "This is a test". -/
theorem claim_C8_witness :
    parseRawMessage emptyState
        (['S','u','b','j','e','c','t'] ++ ':' :: ' ' :: ['T','h','i','s'] ++
          '\r' :: '\n' ::
          (List.replicate 1 ' ' ++ ['i','s',' ','a',' ','t','e','s','t']) ++
          ['\r', '\n', '\r', '\n']) =
      (.Complete,
        (['S','u','b','j','e','c','t'] ++ ':' :: ' ' :: ['T','h','i','s'] ++
          '\r' :: '\n' ::
          (List.replicate 1 ' ' ++ ['i','s',' ','a',' ','t','e','s','t']) ++
          ['\r', '\n', '\r', '\n']).length,
        ⟨[⟨['S','u','b','j','e','c','t'],
           ['T','h','i','s'] ++ ' ' :: ['i','s',' ','a',' ','t','e','s','t']⟩], 0,
          (['S','u','b','j','e','c','t'].all goodNameChar)⟩) ∧
    getHeaderValue (parseRawMessage emptyState
        (['S','u','b','j','e','c','t'] ++ ':' :: ' ' :: ['T','h','i','s'] ++
          '\r' :: '\n' ::
          (List.replicate 1 ' ' ++ ['i','s',' ','a',' ','t','e','s','t']) ++
          ['\r', '\n', '\r', '\n'])).2.2.headers ['S','u','b','j','e','c','t'] =
      ['T','h','i','s'] ++ ' ' :: ['i','s',' ','a',' ','t','e','s','t'] :=
  @claim_C8
    (['S','u','b','j','e','c','t'] ++ ':' :: ' ' :: ['T','h','i','s'] ++
      '\r' :: '\n' ::
      (List.replicate 1 ' ' ++ ['i','s',' ','a',' ','t','e','s','t']) ++
      ['\r', '\n', '\r', '\n'])
    ['S','u','b','j','e','c','t'] ['T','h','i','s'] ['i','s',' ','a',' ','t','e','s','t'] 1
    (by decide) (by decide) (by decide) (by decide) (by decide)
    (by decide) (by decide) (by decide) (by decide) rfl

theorem unfoldLoop_value (raw : List Char) : ∀ (fuel off lt : Nat) (v v' : List Char),
    (∀ e, unfoldLoop raw fuel v off lt = .error e →
      unfoldLoop raw fuel v' off lt = .error e) ∧
    (∀ w o, unfoldLoop raw fuel v off lt = .ok (w, o) →
      ∃ s, w = v ++ s ∧ unfoldLoop raw fuel v' off lt = .ok (v' ++ s, o)) := by
  intro fuel
  induction fuel with
  | zero =>
    intro off lt v v'
    constructor
    · intro e he
      rw [unfoldLoop] at he ⊢
      exact he
    · intro w o hw
      rw [unfoldLoop] at hw
      exact absurd hw (by simp)
  | succ n ih =>
    intro off lt v v'
    constructor
    · intro e he
      rw [unfoldLoop] at he ⊢
      cases hf : findCRLF raw (lt + 2) with
      | none =>
        simp only [hf] at he ⊢
        exact he
      | some t2 =>
        simp only [hf] at he ⊢
        by_cases hc : (decide (t2 - (lt + 2) > 2) && isWSP (charAt raw (lt + 2))) = true
        · simp only [hc, if_true] at he ⊢
          exact (ih (t2 + 2) t2 _ _).1 e he
        · rw [Bool.not_eq_true] at hc
          simp only [hc, Bool.false_eq_true, if_false] at he
          exact absurd he (by simp)
    · intro w o hw
      rw [unfoldLoop] at hw ⊢
      cases hf : findCRLF raw (lt + 2) with
      | none =>
        simp only [hf] at hw
        exact absurd hw (by simp)
      | some t2 =>
        simp only [hf] at hw ⊢
        by_cases hc : (decide (t2 - (lt + 2) > 2) && isWSP (charAt raw (lt + 2))) = true
        · simp only [hc, if_true] at hw ⊢
          obtain ⟨s, hs, hres⟩ := (ih (t2 + 2) t2 _ _).2 w o hw
          refine ⟨' ' :: substr raw ((findNotWSPFrom raw (lt + 2)).getD raw.length)
            (t2 - (lt + 2) -
              ((findNotWSPFrom raw (lt + 2)).getD raw.length - (lt + 2))) ++ s,
            ?_, ?_⟩
          · rw [hs]
            simp
          · rw [hres]
            simp
        · rw [Bool.not_eq_true] at hc
          simp only [hc, Bool.false_eq_true, if_false] at hw ⊢
          obtain ⟨hw1, hw2⟩ : v = w ∧ off = o := by
            have := hw
            simp at this
            exact this
          refine ⟨[], by simp [hw1.symm], ?_⟩
          simp [hw2]

theorem parseLoop_sawBad (raw : List Char) : ∀ (fuel offset : Nat) (st : MessageHeadersState),
    (parseLoop raw fuel offset st).2.2.valid =
      (st.valid && !sawBadNameLoop raw st.lineLengthLimit fuel offset &&
        !decide ((parseLoop raw fuel offset st).1 = ParseState.Error)) := by
  intro fuel
  induction fuel with
  | zero =>
    intro offset st
    rw [parseLoop, sawBadNameLoop]
    by_cases h0 : offset = 0 <;> simp [h0]
  | succ n ih =>
    intro offset st
    rw [parseLoop, sawBadNameLoop]
    by_cases hlt : offset < raw.length
    · simp only [if_pos hlt]
      unfold parseStep
      cases hf : findCRLF raw offset with
      | none =>
        simp only [hf]
        by_cases hg : (decide (st.lineLengthLimit > 0) &&
            decide (raw.length - offset + 2 > st.lineLengthLimit)) = true
        · simp only [hg, if_true]
          simp
        · rw [Bool.not_eq_true] at hg
          simp only [hg, Bool.false_eq_true, if_false]
          by_cases h0 : offset = 0 <;> simp [h0]
      | some t2 =>
        simp only [hf]
        by_cases hg : (decide (st.lineLengthLimit > 0) &&
            decide (t2 - offset + 2 > st.lineLengthLimit)) = true
        · simp only [hg, if_true]
          simp
        · rw [Bool.not_eq_true] at hg
          simp only [hg, Bool.false_eq_true, if_false]
          by_cases ht2 : t2 = offset
          · simp only [if_pos ht2]
            simp
          · cases hd : findCharFrom raw ':' offset with
            | none =>
              simp only [if_neg ht2, hd]
              simp
            | some d =>
              simp only [if_neg ht2, hd]
              cases hu : unfoldLoop raw (raw.length + 1)
                  (stripMarginWhitespace (if d + 1 ≤ t2 then substr raw (d + 1) (t2 - (d + 1))
                    else raw.drop (d + 1))) (t2 + 2) t2 with
              | error e =>
                have hu2 := (unfoldLoop_value raw (raw.length + 1) (t2 + 2) t2 _ []).1 e hu
                by_cases hgood : (substr raw offset (d - offset)).all goodNameChar = true
                · simp [hu, hu2, finishHeader, hgood]
                · rw [Bool.not_eq_true] at hgood
                  simp [hu, hu2, finishHeader, hgood]
              | ok p =>
                obtain ⟨w, o⟩ := p
                obtain ⟨s, hws, hu2⟩ :=
                  (unfoldLoop_value raw (raw.length + 1) (t2 + 2) t2 _ []).2 w o hu
                rw [List.nil_append] at hu2
                simp only [hu, hu2, finishHeader]
                rw [ih]
                by_cases hgood : (substr raw offset (d - offset)).all goodNameChar = true
                · simp [hgood]
                · rw [Bool.not_eq_true] at hgood
                  simp [hgood]
    · simp only [if_neg hlt]
      by_cases h0 : offset = 0 <;> simp [h0]

/-- C3 (corrected): for a store whose `valid` flag is set, after
`ParseRawMessage` the `IsValid` flag is false iff the parser saw a
header-name byte outside 33..126 or the parse returned `Error` (the
`Error` paths of MessageHeaders.cpp lines 272-276 and 286-290 also latch
`valid` to false, so the original "iff a bad name byte was seen" is too
strong in that direction); a bad name byte itself does not interrupt
parsing and the offending header is still inserted: parsing
"b d: x\r\n\r\n" returns Complete with the header ("b d", "x") stored
and the store invalid. -/
theorem claim_C3 (raw : List Char) (st : MessageHeadersState) (h : st.valid = true) :
    (isValid (parseRawMessage st raw).2.2 = false ↔
      (sawBadName raw st.lineLengthLimit = true ∨
        (parseRawMessage st raw).1 = ParseState.Error)) ∧
    parseRawMessage emptyState ['b', ' ', 'd', ':', ' ', 'x', '\r', '\n', '\r', '\n'] =
      (.Complete, 10, ⟨[⟨['b', ' ', 'd'], ['x']⟩], 0, false⟩) := by
  constructor
  · unfold isValid parseRawMessage sawBadName
    rw [parseLoop_sawBad, h]
    simp
    by_cases hA : sawBadNameLoop raw st.lineLengthLimit (raw.length + 1) 0 = true
    · simp [hA]
    · rw [Bool.not_eq_true] at hA
      simp [hA]
  · decide

/-- Counterexample to C3 as stated: with line-length limit 3, parsing
"ab\r\n" makes `IsValid` false via the too-long-line `Error` path even
though the parser never saw a header-name byte outside 33..126 (both
line bytes are in range and no name was ever extracted). -/
theorem claim_C3_counterexample :
    isValid (parseRawMessage ⟨[], 3, true⟩ ['a', 'b', '\r', '\n']).2.2 = false ∧
    sawBadName ['a', 'b', '\r', '\n'] 3 = false ∧
    (parseRawMessage ⟨[], 3, true⟩ ['a', 'b', '\r', '\n']).1 = ParseState.Error ∧
    (parseRawMessage ⟨[], 3, true⟩ ['a', 'b', '\r', '\n']).2.2.headers = [] ∧
    ['a', 'b'].all goodNameChar = true := by decide

/-- Witness for C3 at a concrete valid store and input. -/
theorem claim_C3_witness :
    (isValid (parseRawMessage (⟨[], 0, true⟩ : MessageHeadersState)
        ['X', ':', ' ', 'y', '\r', '\n', '\r', '\n']).2.2 = false ↔
      (sawBadName ['X', ':', ' ', 'y', '\r', '\n', '\r', '\n']
          (⟨[], 0, true⟩ : MessageHeadersState).lineLengthLimit = true ∨
        (parseRawMessage (⟨[], 0, true⟩ : MessageHeadersState)
          ['X', ':', ' ', 'y', '\r', '\n', '\r', '\n']).1 = ParseState.Error)) ∧
    parseRawMessage emptyState ['b', ' ', 'd', ':', ' ', 'x', '\r', '\n', '\r', '\n'] =
      (.Complete, 10, ⟨[⟨['b', ' ', 'd'], ['x']⟩], 0, false⟩) :=
  claim_C3 ['X', ':', ' ', 'y', '\r', '\n', '\r', '\n'] ⟨[], 0, true⟩ rfl

theorem substr_getElem {raw : List Char} {a c i : Nat} {x : Char}
    (h : (substr raw a c)[i]? = some x) : raw[a + i]? = some x ∧ i < c := by
  unfold substr at h
  by_cases hic : i < c
  · rw [List.getElem?_take_of_lt hic, List.getElem?_drop] at h
    exact ⟨h, hic⟩
  · rw [List.getElem?_eq_none] at h
    · simp at h
    · calc ((raw.drop a).take c).length ≤ c := by
            simp
          _ ≤ i := by omega

theorem containsCRLF_window {raw : List Char} {off t : Nat}
    (hmin : ∀ j, off ≤ j → j < t → ¬(raw[j]? = some '\r' ∧ raw[j + 1]? = some '\n'))
    {a c : Nat} (ha : off ≤ a) (hac : a + c ≤ t) :
    containsCRLF (substr raw a c) = false := by
  by_contra hcp
  rw [Bool.not_eq_false] at hcp
  obtain ⟨i, h1, h2⟩ := pair_of_containsCRLF hcp
  obtain ⟨h1r, h1c⟩ := substr_getElem h1
  obtain ⟨h2r, h2c⟩ := substr_getElem h2
  refine hmin (a + i) (by omega) (by omega) ⟨h1r, ?_⟩
  have e : a + i + 1 = a + (i + 1) := by omega
  rw [e]
  exact h2r

theorem containsCRLF_cons_safe {x : Char} {l : List Char} (hx : x ≠ '\r')
    (h : containsCRLF l = false) : containsCRLF (x :: l) = false := by
  cases l with
  | nil => rfl
  | cons y r =>
    rw [containsCRLF_cons_cons, h, Bool.or_false]
    simp [hx]

theorem containsCRLF_sep_append {a b : List Char} (ha : containsCRLF a = false)
    (hb : containsCRLF b = false) : containsCRLF (a ++ ' ' :: b) = false :=
  containsCRLF_append_cons (by decide) ha (containsCRLF_cons_safe (by decide) hb)

theorem unfoldLoop_noCRLF (raw : List Char) : ∀ (fuel off lt : Nat) (v : List Char),
    containsCRLF v = false → ∀ w o, unfoldLoop raw fuel v off lt = .ok (w, o) →
    containsCRLF w = false := by
  intro fuel
  induction fuel with
  | zero =>
    intro off lt v hv w o hw
    rw [unfoldLoop] at hw
    exact absurd hw (by simp)
  | succ n ih =>
    intro off lt v hv w o hw
    rw [unfoldLoop] at hw
    cases hf : findCRLF raw (lt + 2) with
    | none =>
      simp only [hf] at hw
      exact absurd hw (by simp)
    | some t2 =>
      simp only [hf] at hw
      by_cases hc : (decide (t2 - (lt + 2) > 2) && isWSP (charAt raw (lt + 2))) = true
      · simp only [hc, if_true] at hw
        obtain ⟨hm1, hm2, hm3, hm4, hm5⟩ := findCRLF_some hf
        cases hfn : findNotWSPFrom raw (lt + 2) with
        | none =>
          obtain ⟨i, hi, -⟩ := findNotWSPFrom_le hm2 (by decide) hm1
          rw [hfn] at hi
          exact absurd hi (by simp)
        | some fnw =>
          simp only [hfn, Option.getD_some] at hw
          obtain ⟨hfnw1, -⟩ := findNotWSPFrom_skip hfn
          have hchunk : containsCRLF
              (substr raw fnw (t2 - (lt + 2) - (fnw - (lt + 2)))) = false := by
            by_cases hft : fnw ≤ t2
            · exact containsCRLF_window hm5 (by omega) (by omega)
            · have hc0 : t2 - (lt + 2) - (fnw - (lt + 2)) = 0 := by omega
              rw [hc0]
              rfl
          exact ih _ _ _ (containsCRLF_sep_append hv hchunk) w o hw
      · rw [Bool.not_eq_true] at hc
        simp only [hc, Bool.false_eq_true, if_false] at hw
        obtain ⟨hw1, -⟩ : v = w ∧ off = o := by
          have := hw
          simp at this
          exact this
        rw [← hw1]
        exact hv

theorem parseStep_next_inv {raw : List Char} {offset : Nat} {st : MessageHeadersState}
    {off' : Nat} {st' : MessageHeadersState}
    (h : parseStep raw offset st = .next off' st') (hv : st'.valid = true) :
    ∃ hd, st'.headers = st.headers ++ [hd] ∧ headerInv hd = true := by
  unfold parseStep at h
  split at h
  · split at h <;> simp at h
  · rename_i lt hfind
    split at h
    · simp at h
    · split at h
      · simp at h
      · split at h
        · simp at h
        · rename_i d hdelim
          obtain ⟨hcf1, hcf2⟩ := findCharFrom_some hdelim
          obtain ⟨hm1, hm2, hm3, hm4, hm5⟩ := findCRLF_some hfind
          split at h
          · rename_i hdlt
            obtain ⟨h2, h3, v1, hr, h4⟩ := finishHeader_next h
            rw [h3] at hv
            have hgood := (Bool.and_eq_true_iff.mp hv).2
            have hv0 : containsCRLF (stripMarginWhitespace
                (substr raw (d + 1) (lt - (d + 1)))) = false :=
              containsCRLF_strip (containsCRLF_window hm5 (by omega) (by omega))
            have hv1' : containsCRLF v1 = false :=
              unfoldLoop_noCRLF raw (raw.length + 1) (lt + 2) lt _ hv0 v1 off' hr
            refine ⟨_, h4, ?_⟩
            unfold headerInv
            rw [hgood, containsCRLF_strip hv1']
            rfl
          · rename_i hdlt
            obtain ⟨h2, h3, v1, hr, h4⟩ := finishHeader_next h
            rw [h3] at hv
            have hgood := (Bool.and_eq_true_iff.mp hv).2
            exfalso
            have hltd : lt < d := by
              rcases Nat.lt_or_ge lt d with hh | hh
              · exact hh
              · have hdl : d = lt := by omega
                rw [hdl, hm2] at hcf2
                simp at hcf2
            have hname : (substr raw offset (d - offset))[lt - offset]? = some '\r' := by
              unfold substr
              rw [List.getElem?_take_of_lt (by omega), List.getElem?_drop]
              have e : offset + (lt - offset) = lt := by omega
              rw [e]
              exact hm2
            have hmem : '\r' ∈ substr raw offset (d - offset) :=
              List.getElem?_mem hname
            have hbad := List.all_eq_true.mp hgood '\r' hmem
            simp [goodNameChar] at hbad

theorem storeInv_append {a b : List Header} (ha : storeInv a = true)
    (hb : storeInv b = true) : storeInv (a ++ b) = true := by
  unfold storeInv at ha hb ⊢
  rw [List.all_append, ha, hb]
  rfl

theorem parseLoop_inv (raw : List Char) : ∀ (fuel offset : Nat) (st : MessageHeadersState),
    (parseLoop raw fuel offset st).2.2.valid = true →
    storeInv st.headers = true →
    storeInv (parseLoop raw fuel offset st).2.2.headers = true := by
  intro fuel
  induction fuel with
  | zero =>
    intro offset st hv hinv
    rw [parseLoop] at hv ⊢
    exact hinv
  | succ n ih =>
    intro offset st hv hinv
    rw [parseLoop] at hv ⊢
    by_cases hlt : offset < raw.length
    · simp only [if_pos hlt] at hv ⊢
      cases hstep : parseStep raw offset st with
      | exit s b st2 =>
        simp only [hstep] at hv ⊢
        rw [(parseStep_exit_shape hstep).1]
        exact hinv
      | next off2 st2 =>
        simp only [hstep] at hv ⊢
        have hv2 : st2.valid = true := parseLoop_valid_mono raw n off2 st2 hv
        obtain ⟨hd, hh, hhd⟩ := parseStep_next_inv hstep hv2
        refine ih off2 st2 hv ?_
        rw [hh]
        exact storeInv_append hinv (by unfold storeInv; rw [List.all_cons, hhd]; rfl)
    · simp only [if_neg hlt] at hv ⊢
      exact hinv

theorem setHeaderAux_inv {n v : List Char} (hn : n.all goodNameChar = true)
    (hv : containsCRLF v = false) : ∀ (hs : List Header) (b : Bool),
    storeInv hs = true → storeInv (setHeaderAux n v hs b).1 = true := by
  intro hs
  induction hs with
  | nil =>
    intro b hinv
    exact hinv
  | cons h rest ih =>
    intro b hinv
    have hinv' := hinv
    unfold storeInv at hinv'
    rw [List.all_cons, Bool.and_eq_true_iff] at hinv'
    have hinv1 : headerInv h = true := hinv'.1
    have hinv2 : storeInv rest = true := hinv'.2
    rw [setHeaderAux]
    by_cases hne : nameEqual h.name n = true
    · simp only [hne, if_true]
      cases b with
      | true => exact ih true hinv2
      | false =>
        simp only [Bool.false_eq_true, if_false]
        unfold storeInv
        rw [List.all_cons]
        have hrest := ih true hinv2
        unfold storeInv at hrest
        rw [hrest, Bool.and_true]
        unfold headerInv at hinv1 ⊢
        rw [(Bool.and_eq_true_iff.mp hinv1).1, hv]
        rfl
    · rw [Bool.not_eq_true] at hne
      simp only [hne, Bool.false_eq_true, if_false]
      unfold storeInv
      rw [List.all_cons]
      have hrest := ih b hinv2
      unfold storeInv at hrest
      rw [hrest, Bool.and_true]
      exact hinv1

theorem setHeader_inv {hs : List Header} {n v : List Char}
    (hinv : storeInv hs = true) (hn : n.all goodNameChar = true)
    (hv : containsCRLF v = false) : storeInv (setHeader hs n v) = true := by
  unfold setHeader
  have haux := setHeaderAux_inv hn hv hs false hinv
  by_cases h2 : (setHeaderAux n v hs false).2 = true
  · simp only [h2, if_true]
    exact haux
  · rw [Bool.not_eq_true] at h2
    simp only [h2, Bool.false_eq_true, if_false]
    refine storeInv_append haux ?_
    unfold storeInv
    rw [List.all_cons]
    unfold headerInv
    rw [hn, hv]
    rfl

theorem removeHeader_inv {hs : List Header} {n : List Char}
    (hinv : storeInv hs = true) : storeInv (removeHeader hs n) = true := by
  unfold removeHeader storeInv
  rw [List.all_eq_true]
  intro h hmem
  unfold storeInv at hinv
  exact List.all_eq_true.mp hinv h (List.mem_of_mem_filter hmem)

theorem applyOp_valid_mono (st : MessageHeadersState) (op : HeaderOp)
    (h : (applyOp st op).valid = true) : st.valid = true := by
  cases op with
  | parse raw => exact parseLoop_valid_mono raw (raw.length + 1) 0 st h
  | set n v => exact h
  | add n v => exact h
  | remove n => exact h

theorem foldl_applyOp_valid_mono : ∀ (ops : List HeaderOp) (st : MessageHeadersState),
    (List.foldl applyOp st ops).valid = true → st.valid = true := by
  intro ops
  induction ops with
  | nil =>
    intro st h
    exact h
  | cons op rest ih =>
    intro st h
    rw [List.foldl_cons] at h
    exact applyOp_valid_mono st op (ih (applyOp st op) h)

theorem applyOp_inv {st : MessageHeadersState} {op : HeaderOp}
    (hok : opOK op = true) (hinv : storeInv st.headers = true)
    (hv : (applyOp st op).valid = true) :
    storeInv (applyOp st op).headers = true := by
  cases op with
  | parse raw => exact parseLoop_inv raw (raw.length + 1) 0 st hv hinv
  | set n v =>
    obtain ⟨h1, h2⟩ := Bool.and_eq_true_iff.mp hok
    rw [Bool.not_eq_true'] at h2
    exact setHeader_inv hinv h1 h2
  | add n v =>
    obtain ⟨h1, h2⟩ := Bool.and_eq_true_iff.mp hok
    rw [Bool.not_eq_true'] at h2
    refine storeInv_append hinv ?_
    unfold storeInv
    rw [List.all_cons]
    unfold headerInv
    rw [h1, h2]
    rfl
  | remove n => exact removeHeader_inv hinv

theorem applyOps_inv : ∀ (ops : List HeaderOp) (st : MessageHeadersState),
    (∀ op ∈ ops, opOK op = true) → storeInv st.headers = true →
    (List.foldl applyOp st ops).valid = true →
    storeInv (List.foldl applyOp st ops).headers = true := by
  intro ops
  induction ops with
  | nil =>
    intro st hok hinv hv
    exact hinv
  | cons op rest ih =>
    intro st hok hinv hv
    rw [List.foldl_cons] at hv ⊢
    have hv1 : (applyOp st op).valid = true := foldl_applyOp_valid_mono rest _ hv
    exact ih (applyOp st op) (fun o ho => hok o (List.mem_cons_of_mem _ ho))
      (applyOp_inv (hok op (List.mem_cons_self _ _)) hinv hv1) hv

/-- C4 (corrected): the store invariant (no CRLF inside any stored value,
all stored name bytes in 33..126) is NOT unconditional — `SetHeader` and
`AddHeader` store their arguments unsanitized and `ParseRawMessage`
inserts offending headers while only latching the `valid` flag.  It does
hold after any sequence of operations from the empty store whose
`set`/`add` arguments respect the wire format (name bytes in 33..126, no
CRLF in the value) and whose final store is still valid. -/
theorem claim_C4 (ops : List HeaderOp) (hok : ∀ op ∈ ops, opOK op = true)
    (hv : (List.foldl applyOp emptyState ops).valid = true) :
    storeInv (List.foldl applyOp emptyState ops).headers = true :=
  applyOps_inv ops emptyState hok (by decide) hv

/-- Counterexample to C4 as stated: a single `AddHeader` from the empty
store plants a CRLF pair inside a stored value, so the invariant does
not survive arbitrary operation sequences. -/
theorem claim_C4_counterexample :
    containsCRLF (getHeaderValue (List.foldl applyOp emptyState
      [HeaderOp.add ['X'] ['a', '\r', '\n', 'b']]).headers ['X']) = true ∧
    storeInv (List.foldl applyOp emptyState
      [HeaderOp.add ['X'] ['a', '\r', '\n', 'b']]).headers = false := by decide

/-- Witness for C4 on a concrete operation sequence mixing set, parse and
remove. -/
theorem claim_C4_witness :
    storeInv (List.foldl applyOp emptyState
      [HeaderOp.set ['X'] ['y'],
       HeaderOp.parse ['A', ':', ' ', 'b', '\r', '\n', '\r', '\n'],
       HeaderOp.remove ['X']]).headers = true :=
  claim_C4 [HeaderOp.set ['X'] ['y'],
       HeaderOp.parse ['A', ':', ' ', 'b', '\r', '\n', '\r', '\n'],
       HeaderOp.remove ['X']] (by decide) (by decide)

theorem strategyScan_fst (s : List Char) : ∀ (count i bo : Nat) (fp : Bool),
    (strategyScan s count i bo fp).1 = bo ∨
      (i ≤ (strategyScan s count i bo fp).1 ∧
        (strategyScan s count i bo fp).1 + 1 ≤ i + count) := by
  intro count
  induction count with
  | zero =>
    intro i bo fp
    left
    rfl
  | succ n ih =>
    intro i bo fp
    rw [strategyScan]
    by_cases hw : isWSP (charAt s i) = true
    · simp only [hw, if_true]
      by_cases hfp : fp = true
      · subst hfp
        simp only [if_true]
        rcases ih (i + 1) bo false with h | ⟨h1, h2⟩
        · left
          exact h
        · right
          exact ⟨by omega, by omega⟩
      · rw [Bool.not_eq_true] at hfp
        subst hfp
        simp only [Bool.false_eq_true, if_false]
        rcases ih (i + 1) i false with h | ⟨h1, h2⟩
        · right
          rw [h]
          exact ⟨Nat.le_refl i, by omega⟩
        · right
          exact ⟨by omega, by omega⟩
    · rw [Bool.not_eq_true] at hw
      simp only [hw, Bool.false_eq_true, if_false]
      rcases ih (i + 1) bo fp with h | ⟨h1, h2⟩
      · left
        exact h
      · right
        exact ⟨by omega, by omega⟩

theorem strategy_cases {L : Nat} (hL : 3 ≤ L) {s : List Char} {cls : Nat} {fp : Bool}
    {ok : Bool} {bo : Nat} {fp' : Bool}
    (h : headerLineFoldingStrategy L s cls fp = (ok, bo, fp')) (hok : ok = true) :
    (s.length - cls ≤ L ∧ bo = s.length) ∨
    (L < s.length - cls ∧ cls < bo ∧ bo + 2 ≤ cls + L) := by
  unfold headerLineFoldingStrategy at h
  by_cases hfit : s.length - cls ≤ L
  · rw [if_pos hfit] at h
    rw [Prod.mk.injEq, Prod.mk.injEq] at h
    left
    exact ⟨hfit, h.2.1.symm⟩
  · rw [if_neg hfit] at h
    dsimp only at h
    rw [Prod.mk.injEq, Prod.mk.injEq] at h
    obtain ⟨h1, h2, h3⟩ := h
    rw [hok] at h1
    right
    refine ⟨by omega, ?_⟩
    cases fp with
    | false =>
      simp only [Bool.false_eq_true, if_false] at h1 h2
      rw [if_pos (show 2 + 1 ≤ cls + L by omega)] at h1 h2
      rw [h2] at h1
      have hbne : ¬(bo = cls) := by simpa using h1
      rcases strategyScan_fst s ((cls + L - (2 + 1)) ⊓ (s.length - 1) + 1 - cls)
          cls cls false with hs | ⟨hs1, hs2⟩
      · rw [h2] at hs
        exact absurd hs hbne
      · rw [h2] at hs1 hs2
        have hmin := Nat.min_le_left (cls + L - (2 + 1)) (s.length - 1)
        exact ⟨by omega, by omega⟩
    | true =>
      simp only [if_true] at h1 h2
      rw [if_pos (show 2 + 0 ≤ cls + L by omega)] at h1 h2
      rw [h2] at h1
      have hbne : ¬(bo = cls) := by simpa using h1
      rcases strategyScan_fst s ((cls + L - (2 + 0)) ⊓ (s.length - 1) + 1 - cls)
          cls cls true with hs | ⟨hs1, hs2⟩
      · rw [h2] at hs
        exact absurd hs hbne
      · rw [h2] at hs1 hs2
        have hmin := Nat.min_le_left (cls + L - (2 + 0)) (s.length - 1)
        exact ⟨by omega, by omega⟩

theorem substr_length_le (s : List Char) (a c : Nat) : (substr s a c).length ≤ c := by
  unfold substr
  rw [List.length_take]
  exact Nat.min_le_left _ _

theorem partLen_le (part0 : List Char) :
    (if endsWith part0 CRLFl then part0 else part0 ++ CRLFl).length ≤ part0.length + 2 := by
  split
  · omega
  · simp only [List.length_append]
    have h2 : CRLFl.length = 2 := rfl
    omega

theorem splitLineAux_bound {pre : List Char} {L : Nat} (hL : 3 ≤ L) :
    ∀ (fuel cls : Nat) (fp : Bool) (parts : List (List Char)),
    splitLineAux (pre ++ CRLFl) CRLFl [' '] L fuel cls fp = some parts →
    (∀ p ∈ parts, p.length ≤ L + 1) ∧
    (cls = 0 → ∀ q qs, parts = q :: qs → q.length ≤ L) := by
  intro fuel
  induction fuel with
  | zero =>
    intro cls fp parts h
    rw [splitLineAux] at h
    exact absurd h (by simp)
  | succ n ih =>
    intro cls fp parts h
    rw [splitLineAux] at h
    by_cases hcls : cls < (pre ++ CRLFl).length
    · rw [if_pos hcls] at h
      dsimp only at h
      rcases hstrat : headerLineFoldingStrategy L (pre ++ CRLFl) cls fp with ⟨ok, bo, fp2⟩
      simp only [hstrat] at h
      cases ok with
      | false => simp at h
      | true =>
        rw [if_pos rfl] at h
        cases hrec : splitLineAux (pre ++ CRLFl) CRLFl [' '] L n (bo + 1) fp2 with
        | none =>
          rw [hrec] at h
          simp at h
        | some rest =>
          rw [hrec] at h
          simp only [Option.some.injEq] at h
          subst h
          have hball : ∀ p ∈ rest, p.length ≤ L + 1 := (ih (bo + 1) fp2 rest hrec).1
          have hlen : (pre ++ CRLFl).length = pre.length + 2 := by simp [CRLFl]
          have hc1 : (if cls ≠ 0 then [' '] else ([] : List Char)).length ≤ 1 := by
            split <;> simp
          have hc0 : cls = 0 → (if cls ≠ 0 then [' '] else ([] : List Char)).length = 0 := by
            intro h0
            rw [if_neg (by omega)]
            rfl
          have hsub := substr_length_le (pre ++ CRLFl) cls (bo - cls)
          have hsub2 := substr_length_le (pre ++ CRLFl) cls
            (pre.length + CRLFl.length - cls)
          have hterm : CRLFl.length = 2 := rfl
          rcases strategy_cases hL hstrat rfl with ⟨hfit, hbo⟩ | ⟨hnf, hlt, hbnd⟩
          · subst hbo
            by_cases hple : cls + 2 ≤ (pre ++ CRLFl).length
            · have hchunk : substr (pre ++ CRLFl) cls ((pre ++ CRLFl).length - cls) =
                  pre.drop cls ++ CRLFl := by
                unfold substr
                rw [List.drop_append_of_le_length (by omega)]
                apply List.take_of_length_le
                simp only [List.length_append, List.length_drop, hterm]
                omega
              have hend : endsWith ((if cls ≠ 0 then [' '] else []) ++
                  substr (pre ++ CRLFl) cls ((pre ++ CRLFl).length - cls)) CRLFl = true := by
                rw [hchunk, ← List.append_assoc]
                exact endsWith_append _ _
              constructor
              · intro p hp
                rcases List.mem_cons.mp hp with rfl | hpr
                · rw [if_pos hend, hchunk]
                  simp only [List.length_append, List.length_drop, hterm]
                  omega
                · exact hball p hpr
              · intro h0 q qs heq
                injection heq with hq hqs
                subst hq
                rw [if_pos hend, hchunk]
                have hi0 := hc0 h0
                simp only [List.length_append, List.length_drop, hterm, hi0]
                omega
            · constructor
              · intro p hp
                rcases List.mem_cons.mp hp with rfl | hpr
                · refine le_trans (partLen_le _) ?_
                  simp only [List.length_append]
                  omega
                · exact hball p hpr
              · intro h0 q qs heq
                exfalso
                omega
          · constructor
            · intro p hp
              rcases List.mem_cons.mp hp with rfl | hpr
              · refine le_trans (partLen_le _) ?_
                simp only [List.length_append]
                omega
              · exact hball p hpr
            · intro h0 q qs heq
              injection heq with hq hqs
              subst hq
              have hi0 := hc0 h0
              refine le_trans (partLen_le _) ?_
              simp only [List.length_append, hi0]
              omega
    · rw [if_neg hcls] at h
      simp only [Option.some.injEq] at h
      subst h
      constructor
      · intro p hp
        simp at hp
      · intro h0 q qs heq
        simp at heq

theorem splitLine_bound {pre : List Char} {L : Nat} (hL : 3 ≤ L) :
    (∀ p ∈ splitLine (pre ++ CRLFl) CRLFl [' '] L, p.length ≤ L + 1) ∧
    (∀ q qs, splitLine (pre ++ CRLFl) CRLFl [' '] L = q :: qs → q.length ≤ L) := by
  unfold splitLine
  cases haux : splitLineAux (pre ++ CRLFl) CRLFl [' '] L
      ((pre ++ CRLFl).length + 1) 0 true with
  | none =>
    constructor
    · intro p hp
      simp at hp
    · intro q qs heq
      simp at heq
  | some parts =>
    simp only [Option.getD_some]
    obtain ⟨h1, h2⟩ := splitLineAux_bound hL _ 0 true parts haux
    exact ⟨h1, h2 rfl⟩

/-- C5 (corrected): with a positive limit L the serializer emits, per
header, the `SplitLine` parts of the header's raw line; when 3 ≤ L every
emitted part is at most L+1 bytes including its CRLF and the first part
of each header's line is at most L bytes — the claimed uniform bound L
fails because the fit test `s.length - startOffset <= limit` of
MessageHeaders.cpp line 214 ignores the one-byte continuation prefix, and
unfolding the serialized block does not always restore the original
value (breaking at a HT turns it into SP), so only the spec's
SP-separated 12-limit example round-trips as stated. -/
theorem claim_C5 (L : Nat) (hL : 3 ≤ L) (h : Header) (st : MessageHeadersState)
    (hst : st.lineLengthLimit = L) :
    (generateRawHeaders st = (st.headers.map (fun g =>
       (splitLine (rawHeaderLine g) CRLFl [' '] L).flatten)).flatten ++ CRLFl) ∧
    (∀ p ∈ splitLine (rawHeaderLine h) CRLFl [' '] L, p.length ≤ L + 1) ∧
    (∀ q qs, splitLine (rawHeaderLine h) CRLFl [' '] L = q :: qs → q.length ≤ L) ∧
    generateRawHeaders
        ⟨[⟨['X'], ['H','e','l','l','o',',',' ','W','o','r','l','d','!']⟩], 12, true⟩ =
      ['X', ':', ' ', 'H', 'e', 'l', 'l', 'o', ',', '\r', '\n',
       ' ', 'W', 'o', 'r', 'l', 'd', '!', '\r', '\n', '\r', '\n'] := by
  have hpos : 0 < L := by omega
  have hr : rawHeaderLine h = (h.name ++ ':' :: ' ' :: h.value) ++ CRLFl := by
    unfold rawHeaderLine
    simp
  refine ⟨?_, ?_, ?_, ?_⟩
  · rw [generateRawHeaders_eq]
    simp [hst, hpos]
  · rw [hr]
    exact (splitLine_bound hL).1
  · rw [hr]
    exact (splitLine_bound hL).2
  · decide

/-- Counterexample to C5 as stated: with limit 12 the header
("X", "Hello,\t1234567890") serializes to parts of lengths 11 and 13
(13 > 12: the continuation space is not counted by the fit test), and
parsing the serialized block back yields "Hello, 1234567890", not the
original HT-separated value. -/
theorem claim_C5_counterexample :
    (splitLine (rawHeaderLine ⟨['X'],
        ['H','e','l','l','o',',','\t','1','2','3','4','5','6','7','8','9','0']⟩)
        CRLFl [' '] 12).map List.length = [11, 13] ∧
    getHeaderValue (parseRawMessage emptyState (generateRawHeaders
        ⟨[⟨['X'], ['H','e','l','l','o',',','\t','1','2','3','4','5','6','7','8','9','0']⟩],
          12, true⟩)).2.2.headers ['X'] =
      ['H','e','l','l','o',',',' ','1','2','3','4','5','6','7','8','9','0'] ∧
    ¬(['H','e','l','l','o',',',' ','1','2','3','4','5','6','7','8','9','0'] =
        ['H','e','l','l','o',',','\t','1','2','3','4','5','6','7','8','9','0']) := by
  decide

/-- Witness for C5 at limit 12 with the spec's example header. -/
theorem claim_C5_witness :
    (generateRawHeaders
        (⟨[⟨['X'], ['H','e','l','l','o',',',' ','W','o','r','l','d','!']⟩], 12, true⟩ :
          MessageHeadersState) =
      ((⟨[⟨['X'], ['H','e','l','l','o',',',' ','W','o','r','l','d','!']⟩], 12, true⟩ :
          MessageHeadersState).headers.map (fun g =>
        (splitLine (rawHeaderLine g) CRLFl [' '] 12).flatten)).flatten ++ CRLFl) ∧
    (∀ p ∈ splitLine (rawHeaderLine
        ⟨['X'], ['H','e','l','l','o',',',' ','W','o','r','l','d','!']⟩) CRLFl [' '] 12,
      p.length ≤ 12 + 1) ∧
    (∀ q qs, splitLine (rawHeaderLine
        ⟨['X'], ['H','e','l','l','o',',',' ','W','o','r','l','d','!']⟩) CRLFl [' '] 12 =
        q :: qs → q.length ≤ 12) ∧
    generateRawHeaders
        ⟨[⟨['X'], ['H','e','l','l','o',',',' ','W','o','r','l','d','!']⟩], 12, true⟩ =
      ['X', ':', ' ', 'H', 'e', 'l', 'l', 'o', ',', '\r', '\n',
       ' ', 'W', 'o', 'r', 'l', 'd', '!', '\r', '\n', '\r', '\n'] :=
  claim_C5 12 (by decide)
    ⟨['X'], ['H','e','l','l','o',',',' ','W','o','r','l','d','!']⟩
    ⟨[⟨['X'], ['H','e','l','l','o',',',' ','W','o','r','l','d','!']⟩], 12, true⟩ rfl
